import Mathlib

/-!
Verification development for the latex-normalizer pipeline
(`src/latex_normalizer.py`), shallowly embedded over `List Char`.
Python strings become `List Char`; functions that can raise become
`Except Err`; regex passes are re-expressed as explicit scanners with
the exact matching semantics of the source patterns (leftmost scan,
greedy repetition with the backtracking the pattern actually permits,
ordered alternation).  Scanners that advance by a variable amount use a
fuel parameter initialised to the input length (each step consumes at
least one character, so the fuel is always sufficient); this keeps every
definition structurally recursive and kernel-computable.
-/

namespace LatexNorm

/-- Error kinds raised by the Python code.  The first four are the
spec's catalogue; `IntervalOutOfOrder` models the raw
`Exception('interval out of order')` of `_interval_to_indices`, and
`IndexErr` models a raw Python `IndexError` (empty-string indexing /
fuel exhaustion markers that are unreachable on real runs). -/
inductive Err where
  | MalformedInput
  | UnbalancedDelimiters
  | OverlappingIntervals
  | OutOfBounds
  | IntervalOutOfOrder
  | IndexErr
  deriving DecidableEq

/-- Backslash character. -/
def bslash : Char := '\\'

/-- Dollar character. -/
def dollar : Char := '$'

/-- Percent character. -/
def percent : Char := '%'

/-- Newline character. -/
def newline : Char := '\n'

/-- Opening brace character. -/
def obrace : Char := '\x7b'

/-- Closing brace character. -/
def cbrace : Char := '\x7d'

/-- Opening square bracket character. -/
def obrack : Char := '['

/-- Closing square bracket character. -/
def cbrack : Char := ']'

/-- ASCII letter test, the `[a-zA-Z]` character class. -/
def isAlphaChar (c : Char) : Bool :=
  ('a' ≤ c && c ≤ 'z') || ('A' ≤ c && c ≤ 'Z')

/-- ASCII digit test. -/
def isDigitChar (c : Char) : Bool := '0' ≤ c && c ≤ '9'

/-- The `\w` character class of the source regexes (modelled over its
ASCII fragment `[a-zA-Z0-9_]`; all inputs of interest are ASCII). -/
def isWordChar (c : Char) : Bool :=
  isAlphaChar c || isDigitChar c || c = '_'

/-- Python whitespace (`str.isspace` / regex `\s`), modelled over the
ASCII characters it contains plus the common Latin-1 members; the same
predicate is shared by `remove_special_characters` and
`remove_white_space`, exactly as `Py_UNICODE_ISSPACE` is shared by
`re`'s `\s` and `str.split` in the source. -/
def isSpacePy (c : Char) : Bool :=
  c = ' ' || c = '\t' || c = '\n' || c = '\x0b' || c = '\x0c' || c = '\r' ||
  c = '\x1c' || c = '\x1d' || c = '\x1e' || c = '\x1f' || c = '\x85' || c = '\xa0'

/-! ## `_matching_paren_pos` -/

/-- The scanning loop of `_matching_paren_pos`: walk the string keeping
the size of the `open_parens` stack (`depth`); a close with depth 0 is
Python's `pop` from an empty list (`IndexErr`), a close with depth 1
returns the current position, end of input is `unmatched parenthesis`. -/
def parenScan (openP closeP : Char) : List Char → Nat → Nat → Except Err Nat
  | [], _, _ => .error .UnbalancedDelimiters
  | c :: cs, pos, depth =>
    if c = openP then parenScan openP closeP cs (pos + 1) (depth + 1)
    else if c = closeP then
      match depth with
      | 0 => .error .IndexErr
      | 1 => .ok pos
      | d + 2 => parenScan openP closeP cs (pos + 1) (d + 1)
    else parenScan openP closeP cs (pos + 1) depth

/-- `_matching_paren_pos(string, open_paren, close_paren)`: position of
the delimiter closing the one the string starts with.  Raises
`MalformedInput` (`leading character should be ...`) when the first
character is not `openP`, `IndexErr` on the empty string
(`string[0]`), and `UnbalancedDelimiters` when the scan runs out. -/
def matching_paren_pos (s : List Char) (openP closeP : Char) : Except Err Nat :=
  match s with
  | [] => .error .IndexErr
  | c :: _ => if c = openP then parenScan openP closeP s 0 0 else .error .MalformedInput

/-- Balance checker for delimiter content: scanning with relative depth
`d`, every close is matched by an earlier open and the total depth
returns to zero exactly at the end.  (Specification-side notion of
"valid nested brace content" used to state claims about
`matching_paren_pos`; not part of the Python source.) -/
def balScan (openP closeP : Char) : List Char → Nat → Bool
  | [], d => d = 0
  | c :: cs, d =>
    if c = openP then balScan openP closeP cs (d + 1)
    else if c = closeP then
      match d with
      | 0 => false
      | d' + 1 => balScan openP closeP cs d'
    else balScan openP closeP cs d

/-- Content whose delimiter depth never returns to zero before the end
(every prefix keeps at least the ambient open delimiter unmatched).
Specification-side notion used to state the `UnbalancedDelimiters`
claim about `matching_paren_pos`. -/
def openScan (openP closeP : Char) : List Char → Nat → Bool
  | [], _ => true
  | c :: cs, d =>
    if c = openP then openScan openP closeP cs (d + 1)
    else if c = closeP then
      match d with
      | 0 => false
      | d' + 1 => openScan openP closeP cs d'
    else openScan openP closeP cs d

/-! ## `_matching_brackets_digram` -/

/-- The loop of `_matching_brackets_digram` over the digram list: push
open-marker positions, pop on close markers recording
`(open_pos, close_pos + 1)`, unbalanced if a close finds an empty stack
or the stack is non-empty at the end.  (The Python stack stores
`(digram, pos)` pairs but the digram component always equals the open
marker, so only positions are kept here.) -/
def digramScan (ob cb : Char × Char) :
    List (Char × Char) → Nat → List Nat → List (Nat × Nat) → Except Err (List (Nat × Nat))
  | [], _, stack, ms =>
    if stack.isEmpty then .ok ms else .error .UnbalancedDelimiters
  | dg :: ds, pos, stack, ms =>
    if dg = ob then digramScan ob cb ds (pos + 1) (pos :: stack) ms
    else if dg = cb then
      match stack with
      | [] => .error .UnbalancedDelimiters
      | p :: st => digramScan ob cb ds (pos + 1) st (ms ++ [(p, pos + 1)])
    else digramScan ob cb ds (pos + 1) stack ms

/-- The digram (adjacent character pair) list of a string,
`zip(text, text[1:])`. -/
def digramsOf (t : List Char) : List (Char × Char) := t.zip t.tail

/-- `_matching_brackets_digram(text, open_bracket, close_bracket)`. -/
def matching_brackets_digram (t : List Char) (ob cb : Char × Char) :
    Except Err (List (Nat × Nat)) :=
  digramScan ob cb (digramsOf t) 0 [] []

/-- The two-character round escape bracket `\(`. -/
def roundOpen : Char × Char := (bslash, '(')

/-- The two-character round escape bracket `\)`. -/
def roundClose : Char × Char := (bslash, ')')

/-- The two-character square escape bracket `\[`. -/
def squareOpen : Char × Char := (bslash, obrack)

/-- The two-character square escape bracket `\]`. -/
def squareClose : Char × Char := (bslash, cbrack)

/-! ## `_interval_to_indices` and `_excise_intervals` -/

/-- `_interval_to_indices((x, y))`: the indices the closed interval
comprises, or `interval out of order` when `y < x`. -/
def interval_to_indices (x y : Nat) : Except Err (List Nat) :=
  if y < x then .error .IntervalOutOfOrder else .ok (List.range' x (y - x + 1))

/-- Lexicographic order on intervals, the order `sorted` uses on Python
pairs of integers. -/
def pairLeP (a b : Nat × Nat) : Prop :=
  a.1 < b.1 ∨ (a.1 = b.1 ∧ a.2 ≤ b.2)

instance pairLeP.decRel : DecidableRel pairLeP := fun a b => by
  unfold pairLeP; infer_instance

/-- Python `sorted` on a list of pairs (stable, ascending,
lexicographic). -/
def sortPairs (l : List (Nat × Nat)) : List (Nat × Nat) :=
  l.insertionSort pairLeP

/-- Python `sorted(ii_list, reverse=True)`.  Reversing the ascending
sort agrees with `reverse=True` here because ties can only be fully
equal pairs. -/
def sortPairsDesc (l : List (Nat × Nat)) : List (Nat × Nat) :=
  (l.insertionSort pairLeP).reverse

/-- The first loop of `_excise_intervals` over the sorted intervals:
build `ii_list` (index, indicator) with indicator `1` on each interval's
first index, and the bag `indices_list` of all covered indices; a later
interval whose start is covered is skipped when its end is covered too
and raises `non-trivially overlapping intervals` otherwise. -/
def buildII :
    List (Nat × Nat) → List (Nat × Nat) → List Nat →
    Except Err (List (Nat × Nat) × List Nat)
  | [], ii, idx => .ok (ii, idx)
  | (s, e) :: rest, ii, idx =>
    if s ∈ idx then
      if e ∈ idx then buildII rest ii idx
      else .error .OverlappingIntervals
    else
      match interval_to_indices s e with
      | .error er => .error er
      | .ok indices =>
          buildII rest (ii ++ indices.zip (1 :: List.replicate (e - s) 0))
            (idx ++ indices)

/-- Delete the character at index `i` (`text[:i] + text[i+1:]`). -/
def eraseAt (t : List Char) (i : Nat) : List Char :=
  t.take i ++ t.drop (i + 1)

/-- Replace the character at index `i` by a space
(`text[:i] + ' ' + text[i+1:]`). -/
def spaceAt (t : List Char) (i : Nat) : List Char :=
  t.take i ++ ' ' :: t.drop (i + 1)

/-- The second loop of `_excise_intervals`: process `(index, indicator)`
pairs (already sorted descending), replacing by a space when the
indicator is set and deleting otherwise. -/
def applyII : List (Nat × Nat) → List Char → List Char
  | [], t => t
  | (i, ind) :: rest, t =>
    applyII rest (if ind = 0 then eraseAt t i else spaceAt t i)

/-- Python `max` over a list of naturals (only used on non-empty
lists, where the `0` seed is inert). -/
def maxNat (l : List Nat) : Nat := l.foldl Nat.max 0

/-- `_excise_intervals(text, intervals)`.  The bounds test
`max(indices_list) > len(text) - 1` is rendered as
`text.length ≤ maxNat idx`, which is equivalent over the integers
(Python's `len(text) - 1` may be `-1`; natural subtraction would not
be). -/
def excise_intervals (t : List Char) (intervals : List (Nat × Nat)) :
    Except Err (List Char) :=
  match buildII (sortPairs intervals) [] [] with
  | .error e => .error e
  | .ok (ii, idx) =>
    if intervals.isEmpty then .ok t
    else if t.length ≤ maxNat idx then .error .OutOfBounds
    else .ok (applyII (sortPairsDesc ii) t)

/-! ## `_remove_line_comments` -/

/-- Length of the leading backslash run of a suffix. -/
def bslashRun (s : List Char) : Nat :=
  (s.takeWhile (fun c => c = bslash)).length

/-- First index of a character in a list. -/
def findChar (c : Char) : List Char → Option Nat
  | [] => none
  | x :: xs => if x = c then some 0 else (findChar c xs).map (· + 1)

/-- Match attempt of `(?<!\\)((?:\\\\)*)%.*\n` at the head of `s` with
previous original character `prev`.  The greedy pair repetition can only
succeed by consuming the whole (even) backslash run; `.*` excludes the
newline, so the match runs through the first following newline.  Returns
`(L, k)`: `L` backslashes kept by the `\1` back-reference and `k`
characters consumed in total. -/
def lineCommentMatch (prev : Option Char) (s : List Char) : Option (Nat × Nat) :=
  if prev = some bslash then none
  else
    let L := bslashRun s
    if L % 2 = 0 then
      match (s.drop L).head? with
      | some c =>
        if c = percent then
          match findChar newline (s.drop (L + 1)) with
          | some j => some (L, L + 1 + j + 1)
          | none => none
        else none
      | none => none
    else none

/-- Substitution scan for the line-comment regex (replacement `\1 `). -/
def lineCommentsGo : Nat → Option Char → List Char → List Char
  | 0, _, s => s
  | _, _, [] => []
  | fuel + 1, prev, c :: cs =>
    match lineCommentMatch prev (c :: cs) with
    | some (L, k) =>
        List.replicate L bslash ++ ' ' :: lineCommentsGo fuel (some newline) ((c :: cs).drop k)
    | none => c :: lineCommentsGo fuel (some c) cs

/-- `_remove_line_comments(text)`. -/
def remove_line_comments (t : List Char) : List Char :=
  lineCommentsGo t.length none t

/-! ## `_remove_accents` -/

/-- The named letter-accent markers of `_remove_accents`. -/
def accentLetters : List Char := ['u', 'v', 'H', 't', 'c', 'd', 'b', 'k']

/-- The single-character accent markers of `_remove_accents`
(`'`, backtick, `^`, `"`, `~`, `=`, `.`), by code point to keep the
source text plain. -/
def accentPunct : List Char :=
  [Char.ofNat 39, Char.ofNat 96, Char.ofNat 94, Char.ofNat 34,
   Char.ofNat 126, Char.ofNat 61, Char.ofNat 46]

/-- Match attempt of `\\(?:u|v|H|t|c|d|b|k)(?:\ |{(\w{1,2})})` at the
head of `s`: returns the captured payload and the consumed length.  The
ordered alternation tries the literal space first, then a brace-wrapped
1-2 word-character payload (greedy, two characters before one). -/
def accentLetterMatch (s : List Char) : Option (List Char × Nat) :=
  match s with
  | b :: x :: rest =>
    if b = bslash && x ∈ accentLetters then
      match rest with
      | ' ' :: _ => some ([], 3)
      | r0 :: r1 :: rtl =>
        if r0 = obrace then
          match rtl with
          | r2 :: r3 :: _ =>
            if isWordChar r1 && isWordChar r2 && r3 = cbrace then some ([r1, r2], 6)
            else if isWordChar r1 && r2 = cbrace then some ([r1], 5)
            else none
          | [r2] =>
            if isWordChar r1 && r2 = cbrace then some ([r1], 5) else none
          | [] => none
        else none
      | _ => none
    else none
  | _ => none

/-- Substitution scan for the letter-accent regex (replacement `\1`). -/
def accentLetterGo : Nat → List Char → List Char
  | 0, s => s
  | _, [] => []
  | fuel + 1, c :: cs =>
    match accentLetterMatch (c :: cs) with
    | some (payload, k) => payload ++ accentLetterGo fuel ((c :: cs).drop k)
    | none => c :: accentLetterGo fuel cs

/-- Match attempt of the non-letter accent regex
`\\(?:'|...)(?:{(\w)})?` at the head of `s`: the brace group is
optional, an unmatched group substitutes the empty string. -/
def accentPunctMatch (s : List Char) : Option (List Char × Nat) :=
  match s with
  | b :: x :: rest =>
    if b = bslash && x ∈ accentPunct then
      match rest with
      | r0 :: r1 :: r2 :: _ =>
        if r0 = obrace && isWordChar r1 && r2 = cbrace then some ([r1], 5)
        else some ([], 2)
      | _ => some ([], 2)
    else none
  | _ => none

/-- Substitution scan for the non-letter accent regex. -/
def accentPunctGo : Nat → List Char → List Char
  | 0, s => s
  | _, [] => []
  | fuel + 1, c :: cs =>
    match accentPunctMatch (c :: cs) with
    | some (payload, k) => payload ++ accentPunctGo fuel ((c :: cs).drop k)
    | none => c :: accentPunctGo fuel cs

/-- `_remove_accents(text)`: the letter-accent substitution followed by
the non-letter accent substitution. -/
def remove_accents (t : List Char) : List Char :=
  let a := accentLetterGo t.length t
  accentPunctGo a.length a

/-! ## `_normalize_commands` -/

/-- The `normalized_commands` catalogue, in source order (the regex
alternation is tried in this order). -/
def cmdCatalog : List (List Char) :=
  [String.toList "subsubsection",
   String.toList "subsection",
   String.toList "section",
   String.toList "chapter",
   String.toList "title",
   String.toList "author",
   String.toList "footnote",
   String.toList "emph"]

/-- Ordered-alternation match of a catalogued command name at the head
of `rest` (the text after a backslash), with a one-character lookahead
`la` (`{` for the first pass, a space for the second): the first name in
catalogue order that is a prefix of `rest` and is followed by `la`.
Returns the matched name's length. -/
def firstCmdWith (la : Char) : List (List Char) → List Char → Option Nat
  | [], _ => none
  | n :: ns, rest =>
    if n.isPrefixOf rest && (rest.drop n.length).head? == some la then some n.length
    else firstCmdWith la ns rest

/-- The `finditer` scan of `\\(subsubsection|...|emph)(?={)` over the
original text: positions of each match's following opening brace
(`open_pos = match end`).  The lookahead is zero-width, so scanning
resumes at the brace itself. -/
def findCmdOpens : Nat → Nat → List Char → List Nat
  | 0, _, _ => []
  | _, _, [] => []
  | fuel + 1, pos, c :: cs =>
    if c = bslash then
      match firstCmdWith obrace cmdCatalog cs with
      | some nl => (pos + 1 + nl) :: findCmdOpens fuel (pos + 1 + nl) (cs.drop nl)
      | none => findCmdOpens fuel (pos + 1) cs
    else findCmdOpens fuel (pos + 1) cs

/-- One iteration of the match loop of `_normalize_commands`: replace
the brace at `open_pos` and its matching close (found in the *current*
text) by spaces, or only the opening brace when it is unmatched.  Both
branches preserve the text length, which is what keeps the original
match positions valid. -/
def applyCmdAt (t : List Char) (o : Nat) : List Char :=
  match matching_paren_pos (t.drop o) obrace cbrace with
  | .ok delta =>
    let c := o + delta
    t.take o ++ ' ' :: ((t.drop (o + 1)).take (c - (o + 1))) ++ ' ' :: t.drop (c + 1)
  | .error _ => t.take o ++ ' ' :: t.drop (o + 1)

/-- The second substitution of `_normalize_commands`:
`\\(subsubsection|...|emph)(?= )` replaced by the empty string (the
lookahead space is not consumed). -/
def stripBareGo : Nat → List Char → List Char
  | 0, s => s
  | _, [] => []
  | fuel + 1, c :: cs =>
    if c = bslash then
      match firstCmdWith ' ' cmdCatalog cs with
      | some nl => stripBareGo fuel (cs.drop nl)
      | none => c :: stripBareGo fuel cs
    else c :: stripBareGo fuel cs

/-- `_normalize_commands(text)`. -/
def normalize_commands (t : List Char) : List Char :=
  let a := (findCmdOpens t.length 0 t).foldl applyCmdAt t
  stripBareGo a.length a

/-! ## `_remove_environments` and `_strip_environments_labels` -/

/-- The `removed_env` catalogue with its optional-star flags. -/
def envCatalog : List (List Char × Bool) :=
  [(String.toList "comment", false),
   (String.toList "figure", false),
   (String.toList "tikzpicture", false),
   (String.toList "equation", true),
   (String.toList "multline", true),
   (String.toList "align", true),
   (String.toList "gather", true)]

/-- Match of the literal tag `\kw{name}` / `\kw{name*}` (the latter only
when `star` is set) at the head of `s`; returns the consumed length. -/
def tagMatch (kw name : List Char) (star : Bool) (s : List Char) : Option Nat :=
  let base := bslash :: kw ++ obrace :: name
  if base.isPrefixOf s then
    let r := s.drop base.length
    if star && r.head? == some '*' && (r.drop 1).head? == some cbrace then
      some (base.length + 2)
    else if r.head? == some cbrace then some (base.length + 1)
    else none
  else none

/-- Position and length of the first `\end{...}` tag in a suffix (the
non-greedy `[\s\S]*?` stops at the first one). -/
def findEndTag (name : List Char) (star : Bool) : Nat → Nat → List Char → Option (Nat × Nat)
  | 0, _, _ => none
  | _, _, [] => none
  | fuel + 1, off, c :: cs =>
    match tagMatch (String.toList "end") name star (c :: cs) with
    | some k => some (off, k)
    | none => findEndTag name star fuel (off + 1) cs

/-- Substitution scan of `\begin{env}[\s\S]*?\end{env}` (replacement
empty) for one catalogue entry: a begin tag with no later end tag is not
a match, and scanning then proceeds one character further. -/
def envSubGo (name : List Char) (star : Bool) : Nat → List Char → List Char
  | 0, s => s
  | _, [] => []
  | fuel + 1, c :: cs =>
    match tagMatch (String.toList "begin") name star (c :: cs) with
    | some bl =>
      match findEndTag name star ((c :: cs).drop bl).length 0 ((c :: cs).drop bl) with
      | some (off, el) => envSubGo name star fuel ((c :: cs).drop (bl + off + el))
      | none => c :: envSubGo name star fuel cs
    | none => c :: envSubGo name star fuel cs

/-- `_remove_environments(text)`: one substitution pass per catalogue
entry, in order. -/
def remove_environments (t : List Char) : List Char :=
  envCatalog.foldl (fun acc p => envSubGo p.1 p.2 acc.length acc) t

/-- The keyword alternation of `_strip_environments_labels`. -/
def selKeywords : List (List Char) :=
  [String.toList "begin", String.toList "end", String.toList "label"]

/-- First index of a closing brace reachable without crossing a newline
(`.*?}` with `.` excluding the newline). -/
def findCloseSameLine : List Char → Option Nat
  | [] => none
  | c :: cs =>
    if c = cbrace then some 0
    else if c = newline then none
    else (findCloseSameLine cs).map (· + 1)

/-- Ordered-alternation match of `begin|end|label` followed by `{` at
the head of `rest`; returns the keyword length. -/
def firstKw : List (List Char) → List Char → Option Nat
  | [], _ => none
  | n :: ns, rest =>
    if n.isPrefixOf rest && (rest.drop n.length).head? == some obrace then some n.length
    else firstKw ns rest

/-- Match attempt of `\\(begin|end|label){.*?}` at the head of `s`;
returns the consumed length. -/
def selMatch (s : List Char) : Option Nat :=
  match s with
  | c :: cs =>
    if c = bslash then
      match firstKw selKeywords cs with
      | some kl =>
        match findCloseSameLine (cs.drop (kl + 1)) with
        | some j => some (1 + kl + 1 + j + 1)
        | none => none
      | none => none
    else none
  | [] => none

/-- Substitution scan for `_strip_environments_labels` (replacement a
single space). -/
def stripEnvLabelsGo : Nat → List Char → List Char
  | 0, s => s
  | _, [] => []
  | fuel + 1, c :: cs =>
    match selMatch (c :: cs) with
    | some k => ' ' :: stripEnvLabelsGo fuel ((c :: cs).drop k)
    | none => c :: stripEnvLabelsGo fuel cs

/-- `_strip_environments_labels(text)`. -/
def strip_environments_labels (t : List Char) : List Char :=
  stripEnvLabelsGo t.length t

/-! ## `_remove_commands` -/

/-- The `[\w@]` character class of the command regex. -/
def isCmdChar (c : Char) : Bool := isWordChar c || c = '@'

/-- The remainder after the command token `\[\w@]*\*?` whose backslash
has just been consumed: drop the greedy word-character run, then one
optional star. -/
def afterCmdName (cs : List Char) : List Char :=
  match cs.dropWhile isCmdChar with
  | '*' :: r2 => r2
  | r => r

/-- `command_regex.split(tail, maxsplit=1)`: `none` when the text has no
backslash, otherwise the text before the first command token and the
text after it. -/
def splitCmd : List Char → Option (List Char × List Char)
  | [] => none
  | c :: cs =>
    if c = bslash then some ([], afterCmdName cs)
    else
      match splitCmd cs with
      | none => none
      | some (b, tl) => some (c :: b, tl)

/-- The inner bracket-consuming loop of `_remove_commands`: while the
tail starts with `{` or `[`, drop through the matching close; an
unmatched opening bracket is dropped alone and the loop breaks. -/
def dropGroupsGo : Nat → List Char → List Char
  | 0, t => t
  | fuel + 1, t =>
    match t with
    | [] => []
    | c :: cs =>
      if c = obrace then
        match matching_paren_pos (c :: cs) obrace cbrace with
        | .ok cp => dropGroupsGo fuel ((c :: cs).drop (cp + 1))
        | .error _ => cs
      else if c = obrack then
        match matching_paren_pos (c :: cs) obrack cbrack with
        | .ok cp => dropGroupsGo fuel ((c :: cs).drop (cp + 1))
        | .error _ => cs
      else c :: cs

/-- The outer loop of `_remove_commands`: split at the first command
token, emit the head plus one space, strip the attached bracket groups,
and continue on the remaining tail. -/
def removeCommandsGo : Nat → List Char → List Char
  | 0, t => t
  | fuel + 1, t =>
    match splitCmd t with
    | none => t
    | some (b, tl) => b ++ ' ' :: removeCommandsGo fuel (dropGroupsGo tl.length tl)

/-- `_remove_commands(text)`. -/
def remove_commands (t : List Char) : List Char :=
  removeCommandsGo t.length t

/-! ## `_remove_dollar_equations`, `_remove_bracket_equations`,
`_remove_equations` -/

/-- Length of the leading dollar run of a suffix. -/
def dollarRun (s : List Char) : Nat :=
  (s.takeWhile (fun c => c = dollar)).length

/-- Match attempt of `(?<!\\)(?:\\\\)*\${5}` at position `p` of `t`: no
backslash immediately before, an even backslash run, then five dollars.
The greedy pair repetition can only succeed on the whole (even) run. -/
def fiveAt (t : List Char) (p : Nat) : Bool :=
  (decide (p = 0) || !((t.drop (p - 1)).head? == some bslash)) &&
  (let s := t.drop p
   let L := bslashRun s
   decide (L % 2 = 0) && ((s.drop L).take 5 == List.replicate 5 dollar))

/-- `bad_syntax_regex.search(text)`: does a disallowed five-dollar run
occur anywhere? -/
def hasBadDollarRun (t : List Char) : Bool :=
  (List.range t.length).any (fiveAt t)

/-- Match attempt of the token regex `(?<!\\)(?:\\\\)*(\${1,4})` at the
head of a suffix: an even backslash run followed by one to four dollars
(greedy).  Returns the length of the whole match — the `span` recorded
by the source includes the backslash pairs. -/
def dollarMatchLen (prev : Option Char) (s : List Char) : Option Nat :=
  if prev = some bslash then none
  else
    let L := bslashRun s
    if L % 2 = 0 then
      let d := min 4 (dollarRun (s.drop L))
      if d = 0 then none else some (L + d)
    else none

/-- `finditer` scan for dollar-delimiter tokens: `(start, length)` pairs
in left-to-right order, resuming after each match. -/
def dollarTokensGo : Nat → Nat → Option Char → List Char → List (Nat × Nat)
  | 0, _, _, _ => []
  | _, _, _, [] => []
  | fuel + 1, pos, prev, c :: cs =>
    match dollarMatchLen prev (c :: cs) with
    | some n => (pos, n) :: dollarTokensGo fuel (pos + n) (some dollar) ((c :: cs).drop n)
    | none => dollarTokensGo fuel (pos + 1) (some c) cs

/-- The token list of `_remove_dollar_equations`. -/
def dollarTokens (t : List Char) : List (Nat × Nat) :=
  dollarTokensGo t.length 0 none t

/-- `list.pop()`: the last element and the remaining list. -/
def popLast {α : Type} (l : List α) : Option (α × List α) :=
  match l.reverse with
  | [] => none
  | x :: rs => some (x, rs.reverse)

/-- The right-to-left pairing loop of `_remove_dollar_equations`: pop a
candidate close token then a candidate open token; a close of length 3
is malformed, equal lengths record one interval, a longer open re-pushes
its excess, a longer close is malformed, and popping from fewer than two
tokens is malformed.  The fuel (`tokens.length + 1` at the call site)
strictly dominates the iteration count since every step removes at least
one token. -/
def resolveGo : Nat → List (Nat × Nat) → List (Nat × Nat) → Except Err (List (Nat × Nat))
  | 0, _, _ => .error .IndexErr
  | fuel + 1, tokens, acc =>
    match popLast tokens with
    | none => .ok acc
    | some ((cp, cl), rest) =>
      match popLast rest with
      | none => .error .MalformedInput
      | some ((op, ol), rest2) =>
        if cl = 3 then .error .MalformedInput
        else if cl = ol then resolveGo fuel rest2 (acc ++ [(op, cp + cl - 1)])
        else if ol > cl then
          resolveGo fuel (rest2 ++ [(op, ol - cl)])
            (acc ++ [(op + (ol - cl), cp + cl - 1)])
        else .error .MalformedInput

/-- `_remove_dollar_equations(text)`. -/
def remove_dollar_equations (t : List Char) : Except Err (List Char) :=
  if hasBadDollarRun t then .error .MalformedInput
  else
    match resolveGo ((dollarTokens t).length + 1) (dollarTokens t) [] with
    | .error e => .error e
    | .ok ivs => excise_intervals t ivs

/-- `_remove_bracket_equations(text)`. -/
def remove_bracket_equations (t : List Char) : Except Err (List Char) :=
  match matching_brackets_digram t roundOpen roundClose with
  | .error e => .error e
  | .ok r =>
    match matching_brackets_digram t squareOpen squareClose with
    | .error e => .error e
    | .ok s => excise_intervals t (r ++ s)

/-- `_remove_equations(text)`: dollar pass, then escape-bracket pass. -/
def remove_equations (t : List Char) : Except Err (List Char) :=
  match remove_dollar_equations t with
  | .error e => .error e
  | .ok t2 => remove_bracket_equations t2

/-! ## `_remove_special_characters`, `_remove_white_space`,
`latex_normalizer` -/

/-- `_remove_special_characters(text)`: every character that is not an
ASCII letter or whitespace becomes a space, one for one. -/
def remove_special_characters (t : List Char) : List Char :=
  t.map (fun c => if isAlphaChar c || isSpacePy c then c else ' ')

/-- `text.split()`: maximal runs of non-whitespace characters, empty
tokens never produced. -/
def pySplitGo : Nat → List Char → List (List Char)
  | 0, _ => []
  | _, [] => []
  | fuel + 1, c :: cs =>
    if isSpacePy c then pySplitGo fuel cs
    else
      (c :: cs.takeWhile (fun d => !isSpacePy d)) ::
        pySplitGo fuel (cs.dropWhile (fun d => !isSpacePy d))

/-- `text.split()` (wrapper fixing the fuel). -/
def pySplit (t : List Char) : List (List Char) := pySplitGo t.length t

/-- `" ".join(words)`. -/
def joinWords : List (List Char) → List Char
  | [] => []
  | [w] => w
  | w :: ws => w ++ ' ' :: joinWords ws

/-- `_remove_white_space(text)`:  `" ".join(text.split())`. -/
def remove_white_space (t : List Char) : List Char :=
  joinWords (pySplit t)

/-- `latex_normalizer(text)`: the full pipeline.  Only the equation
stage can raise; every other stage is total (`_normalize_commands` and
`_remove_commands` catch their own internal exceptions). -/
def latex_normalizer (text : List Char) : Except Err (List Char) :=
  let t1 := remove_line_comments text
  let t2 := remove_accents t1
  let t3 := normalize_commands t2
  let t4 := remove_environments t3
  let t5 := strip_environments_labels t4
  let t6 := remove_commands t5
  match remove_equations t6 with
  | .error e => .error e
  | .ok t7 => .ok (remove_white_space (remove_special_characters t7))

/-- The recogniser for the output-shape regex `^[a-zA-Z]+( [a-zA-Z]+)*$`
(specification-side, used to state the final-output invariant): the
flag tells whether at least one letter of the current word has been
read. -/
def wordsFrom : Bool → List Char → Bool
  | inWord, [] => inWord
  | inWord, c :: cs =>
    if isAlphaChar c then wordsFrom true cs
    else if inWord && c = ' ' then wordsFrom false cs
    else false

/-- Does a string match `^[a-zA-Z]+( [a-zA-Z]+)*$`? -/
def matchesWords (t : List Char) : Bool := wordsFrom false t

/-! ## Lemmas about `matching_paren_pos` -/

theorem parenScan_bal {openP closeP : Char} (hne : openP ≠ closeP) :
    ∀ (cs : List Char) (pos d : Nat) (rest : List Char),
      balScan openP closeP cs d = true →
      parenScan openP closeP (cs ++ closeP :: rest) pos (d + 1) = .ok (pos + cs.length) := by
  intro cs
  induction cs with
  | nil =>
    intro pos d rest hbal
    simp only [balScan, decide_eq_true_eq] at hbal
    subst hbal
    simp [parenScan, Ne.symm hne]
  | cons c cs ih =>
    intro pos d rest hbal
    by_cases hco : c = openP
    · have hb : balScan openP closeP cs (d + 1) = true := by
        simpa only [balScan, if_pos hco] using hbal
      have hgoal : parenScan openP closeP ((c :: cs) ++ closeP :: rest) pos (d + 1)
          = parenScan openP closeP (cs ++ closeP :: rest) (pos + 1) (d + 1 + 1) := by
        simp [parenScan, hco]
      rw [hgoal, ih (pos + 1) (d + 1) rest hb]
      simp only [List.length_cons, Except.ok.injEq]
      omega
    · by_cases hcc : c = closeP
      · have hb0 := hbal
        simp only [balScan, if_neg hco, if_pos hcc] at hb0
        match d, hb0 with
        | d' + 1, hb0 =>
          have hb : balScan openP closeP cs d' = true := hb0
          have hgoal : parenScan openP closeP ((c :: cs) ++ closeP :: rest) pos (d' + 1 + 1)
              = parenScan openP closeP (cs ++ closeP :: rest) (pos + 1) (d' + 1) := by
            subst hcc
            simp [parenScan, hco]
          rw [hgoal, ih (pos + 1) d' rest hb]
          simp only [List.length_cons, Except.ok.injEq]
          omega
      · have hb : balScan openP closeP cs d = true := by
          simpa only [balScan, if_neg hco, if_neg hcc] using hbal
        have hgoal : parenScan openP closeP ((c :: cs) ++ closeP :: rest) pos (d + 1)
            = parenScan openP closeP (cs ++ closeP :: rest) (pos + 1) (d + 1) := by
          simp [parenScan, hco, hcc]
        rw [hgoal, ih (pos + 1) d rest hb]
        simp only [List.length_cons, Except.ok.injEq]
        omega

theorem parenScan_open {openP closeP : Char} :
    ∀ (cs : List Char) (pos d : Nat),
      openScan openP closeP cs d = true →
      parenScan openP closeP cs pos (d + 1) = .error .UnbalancedDelimiters := by
  intro cs
  induction cs with
  | nil => intro pos d _; rfl
  | cons c cs ih =>
    intro pos d hop
    by_cases hco : c = openP
    · have hb : openScan openP closeP cs (d + 1) = true := by
        simpa only [openScan, if_pos hco] using hop
      have hgoal : parenScan openP closeP (c :: cs) pos (d + 1)
          = parenScan openP closeP cs (pos + 1) (d + 1 + 1) := by
        simp [parenScan, hco]
      rw [hgoal]
      exact ih (pos + 1) (d + 1) hb
    · by_cases hcc : c = closeP
      · have hb0 := hop
        simp only [openScan, if_neg hco, if_pos hcc] at hb0
        match d, hb0 with
        | d' + 1, hb0 =>
          have hb : openScan openP closeP cs d' = true := hb0
          have hgoal : parenScan openP closeP (c :: cs) pos (d' + 1 + 1)
              = parenScan openP closeP cs (pos + 1) (d' + 1) := by
            subst hcc
            simp [parenScan, hco]
          rw [hgoal]
          exact ih (pos + 1) d' hb
      · have hb : openScan openP closeP cs d = true := by
          simpa only [openScan, if_neg hco, if_neg hcc] using hop
        have hgoal : parenScan openP closeP (c :: cs) pos (d + 1)
            = parenScan openP closeP cs (pos + 1) (d + 1) := by
          simp [parenScan, hco, hcc]
        rw [hgoal]
        exact ih (pos + 1) d hb

/-- C7: `matchingSingleDelimiter` on `"{" + balanced content + "}"`
returns the index of the final character; on a string whose first
character is not the opening delimiter it fails with `MalformedInput`;
on `"{" + content` whose depth never returns to zero it fails with
`UnbalancedDelimiters`. -/
theorem matching_paren_pos_spec :
    (∀ content : List Char, balScan obrace cbrace content 0 = true →
      matching_paren_pos (obrace :: content ++ [cbrace]) obrace cbrace
        = .ok ((obrace :: content ++ [cbrace]).length - 1)) ∧
    (∀ (c : Char) (s : List Char), c ≠ obrace →
      matching_paren_pos (c :: s) obrace cbrace = .error .MalformedInput) ∧
    (∀ content : List Char, openScan obrace cbrace content 0 = true →
      matching_paren_pos (obrace :: content) obrace cbrace
        = .error .UnbalancedDelimiters) := by
  have hne : obrace ≠ cbrace := by decide
  refine ⟨?_, ?_, ?_⟩
  · intro content hbal
    have step : matching_paren_pos (obrace :: content ++ [cbrace]) obrace cbrace
        = parenScan obrace cbrace (content ++ cbrace :: []) 1 1 := by
      simp [matching_paren_pos, parenScan]
    rw [step, parenScan_bal hne content 1 0 [] hbal]
    simp only [List.length_append, List.length_cons, List.length_nil, Except.ok.injEq]
    omega
  · intro c s hc
    simp [matching_paren_pos, hc]
  · intro content hop
    have step : matching_paren_pos (obrace :: content) obrace cbrace
        = parenScan obrace cbrace content 1 1 := by
      simp [matching_paren_pos, parenScan]
    rw [step, parenScan_open content 1 0 hop]

/-- Witness for `matching_paren_pos_spec` at `"{a{}b}"`, `"x"` and
`"{a"`. -/
theorem matching_paren_pos_spec_witness :
    matching_paren_pos (obrace :: String.toList "a\x7b\x7db" ++ [cbrace]) obrace cbrace
      = .ok 5 ∧
    matching_paren_pos ('x' :: []) obrace cbrace = .error .MalformedInput ∧
    matching_paren_pos (obrace :: String.toList "a") obrace cbrace
      = .error .UnbalancedDelimiters := by
  refine ⟨?_, ?_, ?_⟩
  · have h := matching_paren_pos_spec.1 (String.toList "a\x7b\x7db") (by decide)
    simpa using h
  · exact matching_paren_pos_spec.2.1 'x' [] (by decide)
  · exact matching_paren_pos_spec.2.2 (String.toList "a") (by decide)

/-! ## Lemmas about `_matching_brackets_digram` -/

theorem digramScan_closes_lt {ob cb : Char × Char} :
    ∀ (ds : List (Char × Char)) (pos : Nat) (st : List Nat)
      (acc out : List (Nat × Nat)),
      List.Pairwise (fun a b : Nat × Nat => a.2 < b.2) acc →
      (∀ m ∈ acc, m.2 ≤ pos) →
      digramScan ob cb ds pos st acc = .ok out →
      List.Pairwise (fun a b : Nat × Nat => a.2 < b.2) out := by
  intro ds
  induction ds with
  | nil =>
    intro pos st acc out hpw _ hrun
    cases st with
    | nil =>
      simp only [digramScan, List.isEmpty_nil, if_true, Except.ok.injEq] at hrun
      subst hrun; exact hpw
    | cons p st => simp [digramScan] at hrun
  | cons dg ds ih =>
    intro pos st acc out hpw hb hrun
    by_cases hdo : dg = ob
    · have hrun' : digramScan ob cb ds (pos + 1) (pos :: st) acc = .ok out := by
        simpa only [digramScan, if_pos hdo] using hrun
      exact ih (pos + 1) (pos :: st) acc out hpw
        (fun m hm => Nat.le_succ_of_le (hb m hm)) hrun'
    · by_cases hdc : dg = cb
      · cases st with
        | nil =>
          rw [hdc] at hdo hrun
          simp [digramScan, hdo] at hrun
        | cons p st =>
          have hrun' : digramScan ob cb ds (pos + 1) st (acc ++ [(p, pos + 1)]) = .ok out := by
            simpa only [digramScan, if_neg hdo, if_pos hdc] using hrun
          refine ih (pos + 1) st (acc ++ [(p, pos + 1)]) out ?_ ?_ hrun'
          · refine List.pairwise_append.2 ⟨hpw, List.pairwise_singleton _ _, ?_⟩
            intro a ha b hbmem
            simp only [List.mem_singleton] at hbmem
            subst hbmem
            exact Nat.lt_succ_of_le (hb a ha)
          · intro m hm
            rcases List.mem_append.1 hm with h | h
            · exact Nat.le_succ_of_le (hb m h)
            · simp only [List.mem_singleton] at h; subst h; exact Nat.le_refl _
      · have hrun' : digramScan ob cb ds (pos + 1) st acc = .ok out := by
          simpa only [digramScan, if_neg hdo, if_neg hdc] using hrun
        exact ih (pos + 1) st acc out hpw (fun m hm => Nat.le_succ_of_le (hb m hm)) hrun'

/-- C8: the two-character pair matcher.  A close marker with stack top
`p` records the interval `[p, closeStart + 1]`; a close marker on an
empty stack and a non-empty stack at the end of the scan fail with
`UnbalancedDelimiters`; an exhausted scan over an empty stack returns
the recorded matches; the matches of any successful run are listed in
strictly increasing order of closing position (so a nested pair appears
before its enclosing pair), as in the source example
`\(\(\)\)` ↦ `[(2, 5), (0, 7)]`. -/
theorem matching_brackets_digram_spec :
    (∀ (ob cb : Char × Char) (ds : List (Char × Char)) (pos p : Nat)
       (st : List Nat) (ms : List (Nat × Nat)), ob ≠ cb →
       digramScan ob cb (cb :: ds) pos (p :: st) ms
         = digramScan ob cb ds (pos + 1) st (ms ++ [(p, pos + 1)])) ∧
    (∀ (ob cb : Char × Char) (ds : List (Char × Char)) (pos : Nat)
       (ms : List (Nat × Nat)), ob ≠ cb →
       digramScan ob cb (cb :: ds) pos [] ms = .error .UnbalancedDelimiters) ∧
    (∀ (ob cb : Char × Char) (pos p : Nat) (st : List Nat) (ms : List (Nat × Nat)),
       digramScan ob cb [] pos (p :: st) ms = .error .UnbalancedDelimiters) ∧
    (∀ (ob cb : Char × Char) (pos : Nat) (ms : List (Nat × Nat)),
       digramScan ob cb [] pos [] ms = .ok ms) ∧
    (∀ (ob cb : Char × Char) (t : List Char) (ms : List (Nat × Nat)),
       matching_brackets_digram t ob cb = .ok ms →
       List.Pairwise (fun a b : Nat × Nat => a.2 < b.2) ms) ∧
    (matching_brackets_digram (String.toList "\\(\\(\\)\\)") roundOpen roundClose
       = .ok [(2, 5), (0, 7)]) := by
  refine ⟨?_, ?_, ?_, ?_, ?_, ?_⟩
  · intro ob cb ds pos p st ms hne
    simp [digramScan, Ne.symm hne]
  · intro ob cb ds pos ms hne
    simp [digramScan, Ne.symm hne]
  · intro ob cb pos p st ms
    simp [digramScan]
  · intro ob cb pos ms
    simp [digramScan]
  · intro ob cb t ms hrun
    exact digramScan_closes_lt (digramsOf t) 0 [] [] ms List.Pairwise.nil
      (by intro m hm; simp at hm) hrun
  · rfl

/-- Witness for `matching_brackets_digram_spec` at concrete inputs. -/
theorem matching_brackets_digram_spec_witness :
    digramScan roundOpen roundClose [roundClose] 0 [0] []
      = digramScan roundOpen roundClose [] 1 [] [(0, 1)] ∧
    digramScan roundOpen roundClose [roundClose] 0 [] [] = .error .UnbalancedDelimiters ∧
    digramScan roundOpen roundClose [] 0 [0] [] = .error .UnbalancedDelimiters ∧
    digramScan roundOpen roundClose [] 0 [] [(0, 1)] = .ok [(0, 1)] ∧
    List.Pairwise (fun a b : Nat × Nat => a.2 < b.2) [(2, 5), (0, 7)] :=
  ⟨matching_brackets_digram_spec.1 _ _ [] 0 0 [] [] (by decide),
   matching_brackets_digram_spec.2.1 _ _ [] 0 [] (by decide),
   matching_brackets_digram_spec.2.2.1 _ _ 0 0 [] [],
   matching_brackets_digram_spec.2.2.2.1 _ _ 0 [(0, 1)],
   matching_brackets_digram_spec.2.2.2.2.1 roundOpen roundClose
     (String.toList "\\(\\(\\)\\)") [(2, 5), (0, 7)] (by rfl)⟩

/-! ## Lemmas about `_excise_intervals` -/

theorem sortPairs_nil : sortPairs [] = [] := rfl

theorem sortPairs_single (a : Nat × Nat) : sortPairs [a] = [a] := rfl

theorem sortPairs_pair (a b : Nat × Nat) :
    sortPairs [a, b] = if pairLeP a b then [a, b] else [b, a] := by
  simp [sortPairs, List.insertionSort, List.orderedInsert]

theorem sortPairs_cons_min {a : Nat × Nat} {l : List (Nat × Nat)}
    (h : ∀ p ∈ l, pairLeP a p) : sortPairs (a :: l) = a :: sortPairs l := by
  unfold sortPairs
  simp only [List.insertionSort]
  cases hs : List.insertionSort pairLeP l with
  | nil => simp [List.orderedInsert]
  | cons b bs =>
    have hb : b ∈ l := (List.perm_insertionSort pairLeP l).subset
      (hs ▸ List.mem_cons_self b bs)
    simp [List.orderedInsert, h b hb]

theorem foldl_max_range' :
    ∀ (n s a : Nat), List.foldl Nat.max a (List.range' s (n + 1)) = Nat.max a (s + n) := by
  intro n
  induction n with
  | zero => intro s a; simp [List.range'_one]
  | succ n ih =>
    intro s a
    rw [List.range'_succ, List.foldl_cons, ih (s + 1) (Nat.max a s)]
    simp only [Nat.max_def]
    split_ifs <;> omega

theorem maxNat_range' (s n : Nat) : maxNat (List.range' s (n + 1)) = s + n := by
  unfold maxNat
  rw [foldl_max_range' n s 0]
  simp only [Nat.max_def]
  split_ifs <;> omega

theorem sorted_zip_of_lt :
    ∀ {idx inds : List Nat}, List.Pairwise (· < ·) idx →
      List.Sorted pairLeP (idx.zip inds) := by
  intro idx
  induction idx with
  | nil => intro inds _; simp [List.Sorted]
  | cons x xs ih =>
    intro inds hpw
    cases inds with
    | nil => simp [List.Sorted]
    | cons y ys =>
      rw [List.zip_cons_cons]
      refine List.Pairwise.cons ?_ (ih hpw.of_cons)
      rintro ⟨b1, b2⟩ hb
      exact Or.inl (List.rel_of_pairwise_cons hpw (List.of_mem_zip hb).1)

theorem sortPairsDesc_sorted {l : List (Nat × Nat)} (h : List.Sorted pairLeP l) :
    sortPairsDesc l = l.reverse := by
  unfold sortPairsDesc
  rw [h.insertionSort_eq]

theorem eraseAt_length {t : List Char} {i : Nat} (h : i < t.length) :
    (eraseAt t i).length = t.length - 1 := by
  unfold eraseAt
  rw [List.length_append, List.length_take, List.length_drop]
  omega

theorem applyII_desc_run :
    ∀ (n : Nat) {s : Nat} (t : List Char), s + n < t.length →
      applyII (((List.range' s (n + 1)).zip (1 :: List.replicate n 0)).reverse) t
        = t.take s ++ ' ' :: t.drop (s + n + 1) := by
  intro n
  induction n with
  | zero =>
    intro s t h
    simp only [List.range'_one, List.replicate_zero, List.zip_cons_cons,
      List.zip_nil_right, List.reverse_singleton]
    show applyII [(s, 1)] t = _
    simp [applyII, spaceAt]
  | succ n ih =>
    intro s t h
    have hsplit :
        ((List.range' s (n + 2)).zip (1 :: List.replicate (n + 1) 0)).reverse
          = (s + 1 + n, 0) ::
              (((List.range' s (n + 1)).zip (1 :: List.replicate n 0)).reverse.map
                 (fun p => p)) := by
      rw [List.range'_succ]
      have h1 : List.range' (s + 1) (n + 1) = List.range' (s + 1) n ++ [s + 1 + n] := by
        have h0 : List.range' (s + 1) (n + 1) 1
            = List.range' (s + 1) n 1 ++ [s + 1 + 1 * n] :=
          List.range'_concat (s + 1) n
        simpa using h0
      have h2 : (List.replicate (n + 1) (0 : Nat)) = List.replicate n 0 ++ [0] :=
        List.replicate_succ' n 0
      rw [List.zip_cons_cons, h1, h2,
        List.zip_append (by simp), List.reverse_cons, List.reverse_append]
      simp [List.range'_succ, List.zip_cons_cons]
    rw [hsplit]
    simp only [List.map_id']
    show applyII ((s + 1 + n, 0) :: _) t = _
    have hstep :
        applyII ((s + 1 + n, 0) ::
            ((List.range' s (n + 1)).zip (1 :: List.replicate n 0)).reverse) t
          = applyII (((List.range' s (n + 1)).zip (1 :: List.replicate n 0)).reverse)
              (eraseAt t (s + 1 + n)) := by
      simp [applyII]
    rw [hstep]
    have hlen' : s + n < (eraseAt t (s + 1 + n)).length := by
      rw [eraseAt_length (by omega)]
      omega
    rw [ih (eraseAt t (s + 1 + n)) hlen']
    have htk : (eraseAt t (s + 1 + n)).take s = t.take s := by
      unfold eraseAt
      rw [List.take_append_of_le_length (by rw [List.length_take]; omega),
        List.take_take]
      congr 1
      omega
    have hdr : (eraseAt t (s + 1 + n)).drop (s + n + 1) = t.drop (s + n + 2) := by
      unfold eraseAt
      have hl : (t.take (s + 1 + n)).length = s + n + 1 := by
        rw [List.length_take]; omega
      have : s + n + 1 = (t.take (s + 1 + n)).length := hl.symm
      rw [this, List.drop_left]
      congr 1
      omega
    rw [htk, hdr]
    have : s + n + 2 = s + (n + 1) + 1 := by omega
    rw [this]

theorem buildII_single {s e : Nat} (hse : s ≤ e) :
    buildII [(s, e)] [] []
      = .ok ((List.range' s (e - s + 1)).zip (1 :: List.replicate (e - s) 0),
             List.range' s (e - s + 1)) := by
  simp [buildII, interval_to_indices, Nat.not_lt.2 hse]

/-- C9 (amended reading is the claim itself, which holds): excising the
empty interval list is the identity; excising a single in-bounds
interval `(s, e)` with `s ≤ e` replaces exactly the characters at
positions `s..e` by one space, shrinking the length by `e - s`; a
single interval whose end reaches past the last index fails with
`OutOfBounds`. -/
theorem excise_single_interval_spec :
    (∀ t : List Char, excise_intervals t [] = .ok t) ∧
    (∀ (t : List Char) (s e : Nat), s ≤ e → e < t.length →
      excise_intervals t [(s, e)] = .ok (t.take s ++ ' ' :: t.drop (e + 1)) ∧
      (t.take s ++ ' ' :: t.drop (e + 1)).length = t.length - (e - s)) ∧
    (∀ (t : List Char) (s e : Nat), s ≤ e → t.length ≤ e →
      excise_intervals t [(s, e)] = .error .OutOfBounds) := by
  refine ⟨?_, ?_, ?_⟩
  · intro t
    simp [excise_intervals, sortPairs_nil, buildII]
  · intro t s e hse hlen
    obtain ⟨n, rfl⟩ : ∃ n, e = s + n := ⟨e - s, by omega⟩
    have hes : s + n - s = n := by omega
    constructor
    · unfold excise_intervals
      rw [sortPairs_single, buildII_single hse, hes]
      have hmax : maxNat (List.range' s (n + 1)) = s + n := maxNat_range' s n
      have hdesc :
          sortPairsDesc ((List.range' s (n + 1)).zip (1 :: List.replicate n 0))
            = ((List.range' s (n + 1)).zip (1 :: List.replicate n 0)).reverse :=
        sortPairsDesc_sorted (sorted_zip_of_lt (List.pairwise_lt_range' s (n + 1)))
      simp only [List.isEmpty_cons, if_false, Bool.false_eq_true, hmax, hdesc]
      rw [if_neg (by omega), applyII_desc_run n t (by omega)]
    · rw [List.length_append, List.length_cons, List.length_take, List.length_drop]
      omega
  · intro t s e hse hlen
    obtain ⟨n, rfl⟩ : ∃ n, e = s + n := ⟨e - s, by omega⟩
    have hes : s + n - s = n := by omega
    unfold excise_intervals
    rw [sortPairs_single, buildII_single hse, hes]
    have hmax : maxNat (List.range' s (n + 1)) = s + n := maxNat_range' s n
    simp only [List.isEmpty_cons, if_false, Bool.false_eq_true, hmax]
    rw [if_pos (by omega)]

/-- Witness for `excise_single_interval_spec`: the source doctest
`excise("Remove this and nothing else", [(7, 10)])` and the
out-of-bounds doctest `excise("hey", [(2, 3)])`. -/
theorem excise_single_interval_spec_witness :
    excise_intervals (String.toList "Remove this and nothing else") []
      = .ok (String.toList "Remove this and nothing else") ∧
    excise_intervals (String.toList "Remove this and nothing else") [(7, 10)]
      = .ok ((String.toList "Remove this and nothing else").take 7 ++
             ' ' :: (String.toList "Remove this and nothing else").drop 11) ∧
    excise_intervals (String.toList "hey") [(2, 3)] = .error .OutOfBounds :=
  ⟨excise_single_interval_spec.1 (String.toList "Remove this and nothing else"),
   (excise_single_interval_spec.2.1 (String.toList "Remove this and nothing else")
      7 10 (by decide) (by decide)).1,
   excise_single_interval_spec.2.2 (String.toList "hey") 2 3 (by decide) (by decide)⟩

/-! ## Overlap policy of `_excise_intervals` (claim C2) -/

/-- C2 counterexample: `[(7,10),(8,9)]` is a pair of distinct
overlapping intervals that do **not** share a start index, yet excision
succeeds (the claim says any such pair must fail); and `[(7,8),(7,10)]`
is a pair sharing a start index with one containing the other, yet
excision fails with `OverlappingIntervals` (the claim says it must be
permitted). -/
theorem excise_overlap_claim_counterexample :
    excise_intervals (String.toList "Remove this and nothing else") [(7, 10), (8, 9)]
      = .ok (String.toList "Remove   and nothing else") ∧
    excise_intervals (String.toList "Remove this and nothing else") [(7, 8), (7, 10)]
      = .error .OverlappingIntervals :=
  ⟨rfl, rfl⟩

theorem buildII_pair_skip {s1 e1 s2 e2 : Nat}
    (h1 : s1 ≤ e1) (hmem : s1 ≤ s2 ∧ s2 ≤ e1) (hmem2 : s1 ≤ e2 ∧ e2 ≤ e1) :
    buildII [(s1, e1), (s2, e2)] [] [] = buildII [(s1, e1)] [] [] := by
  rw [buildII_single h1]
  simp only [buildII, List.not_mem_nil, if_false]
  rw [interval_to_indices, if_neg (Nat.not_lt.2 h1)]
  simp only [List.nil_append, buildII]
  rw [if_pos (by rw [List.mem_range'_1]; omega),
    if_pos (by rw [List.mem_range'_1]; omega)]

/-- C2 corrected: the pair-level overlap policy actually implemented.
With the intervals processed in sorted order, a second interval fully
contained in the first (hence with a strictly larger start) is
tolerated and the excision equals that of the containing interval
alone; two intervals sharing a start index with different ends fail
with `OverlappingIntervals` (the shorter sorts first and the longer's
end is uncovered); and two crossing intervals with different starts
fail with `OverlappingIntervals`. -/
theorem excise_overlap_policy :
    (∀ (t : List Char) (s1 e1 s2 e2 : Nat), s1 < s2 → s2 ≤ e2 → e2 ≤ e1 →
      excise_intervals t [(s1, e1), (s2, e2)] = excise_intervals t [(s1, e1)]) ∧
    (∀ (t : List Char) (s e1 e2 : Nat), s ≤ e2 → e2 < e1 →
      excise_intervals t [(s, e1), (s, e2)] = .error .OverlappingIntervals) ∧
    (∀ (t : List Char) (s1 e1 s2 e2 : Nat), s1 < s2 → s2 ≤ e1 → e1 < e2 →
      excise_intervals t [(s1, e1), (s2, e2)] = .error .OverlappingIntervals) := by
  refine ⟨?_, ?_, ?_⟩
  · intro t s1 e1 s2 e2 h12 h2 h21
    unfold excise_intervals
    rw [sortPairs_pair, if_pos (show pairLeP (s1, e1) (s2, e2) from Or.inl h12),
      sortPairs_single, buildII_pair_skip (by omega) (by omega) (by omega)]
    cases hb : buildII [(s1, e1)] [] [] with
    | error e => rfl
    | ok pr => simp
  · intro t s e1 e2 h2 h21
    unfold excise_intervals
    rw [sortPairs_pair, if_neg (show ¬ pairLeP (s, e1) (s, e2) from by
      unfold pairLeP; omega)]
    have hstep : buildII [(s, e2), (s, e1)] [] [] = .error .OverlappingIntervals := by
      have h1 : buildII [(s, e2), (s, e1)] [] []
          = buildII [(s, e1)]
              ((List.range' s (e2 - s + 1)).zip (1 :: List.replicate (e2 - s) 0))
              (List.range' s (e2 - s + 1)) := by
        simp [buildII, interval_to_indices, Nat.not_lt.2 h2]
      rw [h1]
      simp only [buildII]
      rw [if_pos (show s ∈ List.range' s (e2 - s + 1) from by
            rw [List.mem_range'_1]; omega),
        if_neg (show ¬ e1 ∈ List.range' s (e2 - s + 1) from by
            rw [List.mem_range'_1]; omega)]
    rw [hstep]
  · intro t s1 e1 s2 e2 h12 h2 h21
    unfold excise_intervals
    rw [sortPairs_pair, if_pos (show pairLeP (s1, e1) (s2, e2) from Or.inl h12)]
    have hstep : buildII [(s1, e1), (s2, e2)] [] [] = .error .OverlappingIntervals := by
      have h1 : buildII [(s1, e1), (s2, e2)] [] []
          = buildII [(s2, e2)]
              ((List.range' s1 (e1 - s1 + 1)).zip (1 :: List.replicate (e1 - s1) 0))
              (List.range' s1 (e1 - s1 + 1)) := by
        simp [buildII, interval_to_indices, Nat.not_lt.2 (show s1 ≤ e1 from by omega)]
      rw [h1]
      simp only [buildII]
      rw [if_pos (show s2 ∈ List.range' s1 (e1 - s1 + 1) from by
            rw [List.mem_range'_1]; omega),
        if_neg (show ¬ e2 ∈ List.range' s1 (e1 - s1 + 1) from by
            rw [List.mem_range'_1]; omega)]
    rw [hstep]

/-- Witness for `excise_overlap_policy` at the source doctest inputs
and two tiny shared-start / crossing pairs. -/
theorem excise_overlap_policy_witness :
    excise_intervals (String.toList "Remove this and nothing else") [(7, 10), (8, 9)]
      = excise_intervals (String.toList "Remove this and nothing else") [(7, 10)] ∧
    excise_intervals (String.toList "ab") [(0, 2), (0, 1)] = .error .OverlappingIntervals ∧
    excise_intervals (String.toList "Remove this and nothing else") [(7, 9), (8, 10)]
      = .error .OverlappingIntervals :=
  ⟨excise_overlap_policy.1 (String.toList "Remove this and nothing else")
      7 10 8 9 (by decide) (by decide) (by decide),
   excise_overlap_policy.2.1 (String.toList "ab") 0 2 1 (by decide) (by decide),
   excise_overlap_policy.2.2 (String.toList "Remove this and nothing else")
      7 9 8 10 (by decide) (by decide) (by decide)⟩

/-! ## Out-of-order intervals (claim C10) -/

/-- C10 counterexample: the interval list `[(1,5),(3,2)]` contains the
out-of-order interval `(3,2)` (end strictly smaller than start), yet
excision succeeds: the bad interval is reached with both endpoints
already covered by `(1,5)` and is silently skipped, so no
`interval out of order` error is raised. -/
theorem excise_out_of_order_counterexample :
    excise_intervals (String.toList "abcdefg") [(1, 5), (3, 2)]
      = .ok (String.toList "a g") :=
  rfl

/-- C10 corrected: when the out-of-order interval is the *first in
sorted order* (in particular for a singleton list), excision does raise
the `interval out of order` error, for every text — and this error is a
fifth failure mode distinct from the four error kinds of the spec's
catalogue.  An out-of-order interval reached later in sorted order may
instead be skipped (see the counterexample) or be reported as
`OverlappingIntervals`. -/
theorem excise_out_of_order_spec :
    (∀ (t : List Char) (s e : Nat) (rest : List (Nat × Nat)), e < s →
      (∀ p ∈ rest, pairLeP (s, e) p) →
      excise_intervals t ((s, e) :: rest) = .error .IntervalOutOfOrder) ∧
    (Err.IntervalOutOfOrder ≠ Err.MalformedInput ∧
     Err.IntervalOutOfOrder ≠ Err.UnbalancedDelimiters ∧
     Err.IntervalOutOfOrder ≠ Err.OverlappingIntervals ∧
     Err.IntervalOutOfOrder ≠ Err.OutOfBounds) := by
  constructor
  · intro t s e rest hes hmin
    unfold excise_intervals
    rw [sortPairs_cons_min hmin]
    simp only [buildII, List.not_mem_nil, if_false]
    rw [interval_to_indices, if_pos hes]
  · exact ⟨by decide, by decide, by decide, by decide⟩

/-- Witness for `excise_out_of_order_spec`: the out-of-order doctest
input `_interval_to_indices((3,2))` wrapped in an excision at `"hey"`. -/
theorem excise_out_of_order_spec_witness :
    excise_intervals (String.toList "hey") [(3, 2)] = .error .IntervalOutOfOrder :=
  excise_out_of_order_spec.1 (String.toList "hey") 3 2 [] (by decide)
    (by intro p hp; simp at hp)

/-! ## Lemmas for the final-output alphabet invariant (claim C1) -/

theorem pySplitGo_tokens :
    ∀ (fuel : Nat) (t : List Char), t.length ≤ fuel →
      ∀ w ∈ pySplitGo fuel t, w ≠ [] ∧ ∀ c ∈ w, c ∈ t ∧ isSpacePy c = false := by
  intro fuel
  induction fuel with
  | zero => intro t ht w hw; simp [pySplitGo] at hw
  | succ fuel ih =>
    intro t ht w hw
    cases t with
    | nil => simp [pySplitGo] at hw
    | cons c cs =>
      by_cases hsp : isSpacePy c = true
      · have hw' : w ∈ pySplitGo fuel cs := by simpa [pySplitGo, hsp] using hw
        have hres := ih cs (by simp only [List.length_cons] at ht; omega) w hw'
        exact ⟨hres.1, fun x hx =>
          ⟨List.mem_cons_of_mem c (hres.2 x hx).1, (hres.2 x hx).2⟩⟩
      · have hw' : w = c :: cs.takeWhile (fun d => !isSpacePy d) ∨
            w ∈ pySplitGo fuel (cs.dropWhile (fun d => !isSpacePy d)) := by
          simpa [pySplitGo, hsp] using hw
        rcases hw' with rfl | hw'
        · refine ⟨by simp, ?_⟩
          intro x hx
          rcases List.mem_cons.1 hx with rfl | hx
          · exact ⟨List.mem_cons_self _ _, by simpa using hsp⟩
          · have hpx : (!isSpacePy x) = true :=
              List.mem_takeWhile_imp (p := fun d => !isSpacePy d) hx
            have hxl : x ∈ cs := (List.takeWhile_sublist _).subset hx
            exact ⟨List.mem_cons_of_mem c hxl, by simpa using hpx⟩
        · have hlen : (cs.dropWhile (fun d => !isSpacePy d)).length ≤ fuel := by
            have hd := (List.dropWhile_sublist (l := cs)
              (p := fun d => !isSpacePy d)).length_le
            simp only [List.length_cons] at ht
            omega
          have hres := ih _ hlen w hw'
          refine ⟨hres.1, fun x hx => ?_⟩
          have h2 := hres.2 x hx
          exact ⟨List.mem_cons_of_mem c ((List.dropWhile_sublist _).subset h2.1), h2.2⟩

theorem wordsFrom_alpha_run :
    ∀ (w rest : List Char), (∀ c ∈ w, isAlphaChar c = true) →
      wordsFrom true (w ++ rest) = wordsFrom true rest := by
  intro w
  induction w with
  | nil => intro rest _; rfl
  | cons c cs ih =>
    intro rest h
    have hc := h c (List.mem_cons_self c cs)
    simp only [List.cons_append, wordsFrom, hc, if_true]
    exact ih rest (fun x hx => h x (List.mem_cons_of_mem c hx))

theorem wordsFrom_true_alpha (w : List Char) (h : ∀ c ∈ w, isAlphaChar c = true) :
    wordsFrom true w = true := by
  have := wordsFrom_alpha_run w [] h
  simpa using this

theorem wordsFrom_joinWords :
    ∀ (ws : List (List Char)) (w : List Char),
      w ≠ [] → (∀ c ∈ w, isAlphaChar c = true) →
      (∀ v ∈ ws, v ≠ [] ∧ ∀ c ∈ v, isAlphaChar c = true) →
      wordsFrom false (joinWords (w :: ws)) = true := by
  intro ws
  induction ws with
  | nil =>
    intro w hne hal _
    cases w with
    | nil => exact absurd rfl hne
    | cons c cs =>
      have hc := hal c (List.mem_cons_self _ _)
      show wordsFrom false (c :: cs) = true
      simp only [wordsFrom, hc, if_true]
      exact wordsFrom_true_alpha cs (fun x hx => hal x (List.mem_cons_of_mem c hx))
  | cons v vs ih =>
    intro w hne hal hrest
    cases w with
    | nil => exact absurd rfl hne
    | cons c cs =>
      have hc := hal c (List.mem_cons_self _ _)
      have hjoin : joinWords ((c :: cs) :: v :: vs) = (c :: cs) ++ ' ' :: joinWords (v :: vs) := rfl
      rw [hjoin]
      show wordsFrom false (c :: (cs ++ ' ' :: joinWords (v :: vs))) = true
      simp only [wordsFrom, hc, if_true]
      rw [wordsFrom_alpha_run cs _ (fun x hx => hal x (List.mem_cons_of_mem c hx))]
      show wordsFrom true (' ' :: joinWords (v :: vs)) = true
      simp only [wordsFrom]
      rw [if_neg (by decide), if_pos (by decide)]
      exact ih v (hrest v (List.mem_cons_self _ _)).1 (hrest v (List.mem_cons_self _ _)).2
        (fun u hu => hrest u (List.mem_cons_of_mem v hu))

theorem remove_special_chars_mem {c : Char} {t : List Char}
    (hc : c ∈ remove_special_characters t) (hns : isSpacePy c = false) :
    isAlphaChar c = true := by
  unfold remove_special_characters at hc
  rcases List.mem_map.1 hc with ⟨x, _, hfx⟩
  by_cases ha : (isAlphaChar x || isSpacePy x) = true
  · rw [if_pos ha] at hfx
    subst hfx
    have ha' : isAlphaChar x = true ∨ isSpacePy x = true := by simpa using ha
    rcases ha' with h | h
    · exact h
    · rw [h] at hns; cases hns
  · rw [if_neg ha] at hfx
    subst hfx
    exact absurd hns (by decide)

theorem remove_white_space_shape (t : List Char) :
    remove_white_space (remove_special_characters t) = [] ∨
    matchesWords (remove_white_space (remove_special_characters t)) = true := by
  unfold remove_white_space
  cases htk : pySplit (remove_special_characters t) with
  | nil => left; rfl
  | cons w ws =>
    right
    have hall := pySplitGo_tokens (remove_special_characters t).length
      (remove_special_characters t) (Nat.le_refl _)
    have hprops : ∀ v ∈ w :: ws, v ≠ [] ∧ ∀ c ∈ v, isAlphaChar c = true := by
      intro v hv
      have hmem : v ∈ pySplitGo (remove_special_characters t).length
          (remove_special_characters t) := by
        have : pySplitGo (remove_special_characters t).length
            (remove_special_characters t) = w :: ws := htk
        rw [this]; exact hv
      have h := hall v hmem
      refine ⟨h.1, fun c hc => ?_⟩
      exact remove_special_chars_mem (h.2 c hc).1 (h.2 c hc).2
    exact wordsFrom_joinWords ws w (hprops w (List.mem_cons_self _ _)).1
      (hprops w (List.mem_cons_self _ _)).2
      (fun v hv => hprops v (List.mem_cons_of_mem w hv))

/-- C1: whenever the pipeline entry point returns without raising, the
returned string is empty or consists of non-empty ASCII-letter words
separated by single spaces (the regex `^[a-zA-Z]+( [a-zA-Z]+)*$`). -/
theorem latex_normalizer_alphabet (input out : List Char)
    (h : latex_normalizer input = .ok out) :
    out = [] ∨ matchesWords out = true := by
  simp only [latex_normalizer] at h
  split at h
  · cases h
  · simp only [Except.ok.injEq] at h
    rw [← h]
    exact remove_white_space_shape _

/-- Witness for `latex_normalizer_alphabet` at the input `"Hi!"`, on
which the pipeline returns `"Hi"`. -/
theorem latex_normalizer_alphabet_witness :
    String.toList "Hi" = [] ∨ matchesWords (String.toList "Hi") = true :=
  latex_normalizer_alphabet (String.toList "Hi!") (String.toList "Hi") (by rfl)

/-! ## The nested-dollar input (claim C4) -/

/-- C4 counterexample: the full pipeline does *not* fail on
`"$$ \text{$nested$} $$"` — the Command Remover strips `\text` and its
brace group (including the nested dollars) before the equation stage,
which then pairs the outer `$$ ... $$` and the pipeline returns the
empty string. -/
theorem nested_dollar_pipeline_counterexample :
    latex_normalizer (String.toList "$$ \\text\x7b$nested$\x7d $$") = .ok [] :=
  rfl

/-- C4 corrected: it is the equation remover `_remove_equations`,
applied directly to the raw input, that fails with `MalformedInput`
(as in its own doctest); composed inside the pipeline the same text
normalises successfully to the empty string. -/
theorem nested_dollar_pipeline :
    remove_equations (String.toList "$$ \\text\x7b$nested$\x7d $$")
      = .error .MalformedInput ∧
    latex_normalizer (String.toList "$$ \\text\x7b$nested$\x7d $$") = .ok [] :=
  ⟨rfl, rfl⟩

/-! ## Lemmas about the dollar pass (claim C3) -/

theorem dollarMatchLen_none {prev : Option Char} {c : Char} {cs : List Char}
    (hc1 : c ≠ dollar) (hc2 : c ≠ bslash) :
    dollarMatchLen prev (c :: cs) = none := by
  by_cases hp : prev = some bslash
  · simp [dollarMatchLen, hp]
  · have hL : bslashRun (c :: cs) = 0 := by
      simp [bslashRun, List.takeWhile_cons, hc2]
    have hD : dollarRun (c :: cs) = 0 := by
      simp [dollarRun, List.takeWhile_cons, hc1]
    simp [dollarMatchLen, hp, hL, hD]

theorem dollarTokensGo_step {fuel pos : Nat} {prev : Option Char} {c : Char}
    {cs : List Char} (hc1 : c ≠ dollar) (hc2 : c ≠ bslash) :
    dollarTokensGo (fuel + 1) pos prev (c :: cs)
      = dollarTokensGo fuel (pos + 1) (some c) cs := by
  simp [dollarTokensGo, dollarMatchLen_none hc1 hc2]

theorem dollarTokensGo_clean_nil :
    ∀ (s : List Char) (fuel pos : Nat) (prev : Option Char),
      (∀ c ∈ s, c ≠ dollar ∧ c ≠ bslash) →
      dollarTokensGo fuel pos prev s = [] := by
  intro s
  induction s with
  | nil => intro fuel pos prev _; cases fuel <;> rfl
  | cons c cs ih =>
    intro fuel pos prev h
    cases fuel with
    | zero => rfl
    | succ fuel =>
      have hc := h c (List.mem_cons_self _ _)
      rw [dollarTokensGo_step hc.1 hc.2]
      exact ih fuel (pos + 1) (some c) (fun x hx => h x (List.mem_cons_of_mem c hx))

theorem dollarRun_replicate (d : Nat) (post : List Char)
    (h : ∀ c ∈ post, c ≠ dollar) :
    dollarRun (List.replicate d dollar ++ post) = d := by
  induction d with
  | zero =>
    simp only [List.replicate_zero, List.nil_append]
    cases post with
    | nil => rfl
    | cons c cs =>
      have hc := h c (List.mem_cons_self _ _)
      simp [dollarRun, List.takeWhile_cons, hc]
  | succ d ih =>
    simp only [List.replicate_succ, List.cons_append]
    unfold dollarRun
    rw [List.takeWhile_cons, if_pos (by simp)]
    simp only [List.length_cons]
    unfold dollarRun at ih
    omega

theorem dollarMatchLen_run {prev : Option Char} (hprev : prev ≠ some bslash)
    (d : Nat) (post : List Char) (hpost : ∀ c ∈ post, c ≠ dollar)
    (h1 : 1 ≤ d) (h4 : d ≤ 4) :
    dollarMatchLen prev (List.replicate d dollar ++ post) = some d := by
  obtain ⟨d', rfl⟩ : ∃ d', d = d' + 1 := ⟨d - 1, by omega⟩
  have hL : bslashRun (List.replicate (d' + 1) dollar ++ post) = 0 := by
    rw [List.replicate_succ, List.cons_append]
    simp [bslashRun, List.takeWhile_cons, show dollar ≠ bslash from by decide]
  have hD : dollarRun (List.replicate (d' + 1) dollar ++ post) = d' + 1 :=
    dollarRun_replicate _ _ hpost
  unfold dollarMatchLen
  rw [if_neg hprev]
  simp only [hL, List.drop_zero, hD]
  rw [if_pos (by decide), Nat.min_eq_right h4, if_neg (by omega)]
  simp

theorem dollarTokensGo_clean_run :
    ∀ (pre : List Char) (fuel pos : Nat) (prev : Option Char) (d : Nat)
      (post : List Char),
      (∀ c ∈ pre, c ≠ dollar ∧ c ≠ bslash) →
      (∀ c ∈ post, c ≠ dollar ∧ c ≠ bslash) →
      prev ≠ some bslash → 1 ≤ d → d ≤ 4 →
      pre.length + d + post.length ≤ fuel →
      dollarTokensGo fuel pos prev (pre ++ List.replicate d dollar ++ post)
        = [(pos + pre.length, d)] := by
  intro pre
  induction pre with
  | nil =>
    intro fuel pos prev d post _ hpost hprev h1 h4 hfuel
    obtain ⟨f, rfl⟩ : ∃ f, fuel = f + 1 := ⟨fuel - 1, by omega⟩
    simp only [List.nil_append, List.length_nil, Nat.add_zero]
    obtain ⟨d', rfl⟩ : ∃ d', d = d' + 1 := ⟨d - 1, by omega⟩
    have hmatch := dollarMatchLen_run hprev (d' + 1) post
      (fun c hc => (hpost c hc).1) h1 h4
    rw [show List.replicate (d' + 1) dollar ++ post
        = dollar :: (List.replicate d' dollar ++ post) from by
      simp [List.replicate_succ]]  at hmatch ⊢
    simp only [dollarTokensGo, hmatch]
    have hdrop : (dollar :: (List.replicate d' dollar ++ post)).drop (d' + 1)
        = post := by
      rw [List.drop_succ_cons]
      exact List.drop_left' (by simp)
    rw [hdrop, dollarTokensGo_clean_nil post f (pos + (d' + 1)) (some dollar) hpost]
  | cons c pre ih =>
    intro fuel pos prev d post hpre hpost hprev h1 h4 hfuel
    obtain ⟨f, rfl⟩ : ∃ f, fuel = f + 1 :=
      ⟨fuel - 1, by simp only [List.length_cons] at hfuel; omega⟩
    have hc := hpre c (List.mem_cons_self _ _)
    rw [List.cons_append, List.cons_append, dollarTokensGo_step hc.1 hc.2]
    rw [ih f (pos + 1) (some c) d post
      (fun x hx => hpre x (List.mem_cons_of_mem c hx)) hpost
      (by intro hcon; injection hcon with hcon; exact hc.2 hcon) h1 h4
      (by simp only [List.length_cons] at hfuel; omega)]
    simp only [List.length_cons, List.cons.injEq, Prod.mk.injEq, and_true]
    omega

theorem dollarTokensGo_escaped :
    ∀ (pre : List Char) (fuel pos : Nat) (prev : Option Char) (a : Char)
      (post : List Char),
      (∀ c ∈ pre, c ≠ dollar ∧ c ≠ bslash) →
      a ≠ dollar → a ≠ bslash →
      (∀ c ∈ post, c ≠ dollar ∧ c ≠ bslash) →
      dollarTokensGo fuel pos prev (pre ++ a :: bslash :: dollar :: post) = [] := by
  intro pre
  induction pre with
  | nil =>
    intro fuel pos prev a post _ ha1 ha2 hpost
    cases fuel with
    | zero => rfl
    | succ fuel =>
      rw [List.nil_append, dollarTokensGo_step ha1 ha2]
      cases fuel with
      | zero => rfl
      | succ fuel =>
        have hm1 : dollarMatchLen (some a) (bslash :: dollar :: post) = none := by
          have hL : bslashRun (bslash :: dollar :: post) = 1 := by
            simp [bslashRun, List.takeWhile_cons, show dollar ≠ bslash from by decide]
          unfold dollarMatchLen
          rw [if_neg (by intro hcon; injection hcon with hcon; exact ha2 hcon)]
          simp only [hL]
          rw [if_neg (by decide)]
        simp only [dollarTokensGo, hm1]
        cases fuel with
        | zero => rfl
        | succ fuel =>
          have hm2 : dollarMatchLen (some bslash) (dollar :: post) = none := by
            simp [dollarMatchLen]
          simp only [dollarTokensGo, hm2]
          exact dollarTokensGo_clean_nil post _ _ _ hpost
  | cons c pre ih =>
    intro fuel pos prev a post hpre ha1 ha2 hpost
    cases fuel with
    | zero => rfl
    | succ fuel =>
      have hc := hpre c (List.mem_cons_self _ _)
      rw [List.cons_append, dollarTokensGo_step hc.1 hc.2]
      exact ih fuel (pos + 1) (some c) a post
        (fun x hx => hpre x (List.mem_cons_of_mem c hx)) ha1 ha2 hpost

theorem drop_pred_head_getLast? :
    ∀ (l : List Char), (l.drop (l.length - 1)).head? = l.getLast? := by
  intro l
  induction l with
  | nil => rfl
  | cons a l ih =>
    cases l with
    | nil => rfl
    | cons b m =>
      rw [List.getLast?_cons_cons, ← ih]
      have hdd : (a :: b :: m).drop ((a :: b :: m).length - 1)
          = (b :: m).drop ((b :: m).length - 1) := by
        simp only [List.length_cons]
        rw [show m.length + 1 + 1 - 1 = (m.length + 1 - 1) + 1 from by omega,
          List.drop_succ_cons]
      rw [hdd]

theorem fiveAt_run (pre post : List Char) (hlast : pre.getLast? ≠ some bslash) :
    fiveAt (pre ++ List.replicate 5 dollar ++ post) pre.length = true := by
  unfold fiveAt
  rw [Bool.and_eq_true]
  constructor
  · cases pre with
    | nil => simp
    | cons a l =>
      rw [Bool.or_eq_true]
      right
      have hd : ((a :: l) ++ List.replicate 5 dollar ++ post).drop ((a :: l).length - 1)
          = (a :: l).drop ((a :: l).length - 1) ++ (List.replicate 5 dollar ++ post) := by
        rw [List.append_assoc, List.drop_append_of_le_length (by simp)]
      have hh : ((a :: l).drop ((a :: l).length - 1)).head? = (a :: l).getLast? :=
        drop_pred_head_getLast? (a :: l)
      cases hg : (a :: l).getLast? with
      | none => simp [List.getLast?_eq_none_iff] at hg
      | some x =>
        rw [hg] at hh hlast
        cases hlist : (a :: l).drop ((a :: l).length - 1) with
        | nil => rw [hlist] at hh; cases hh
        | cons y ys =>
          rw [hlist] at hh
          simp only [List.head?_cons, Option.some.injEq] at hh
          subst hh
          rw [hd, hlist]
          simp only [List.cons_append, List.head?_cons]
          have hyne : y ≠ bslash := by
            intro hcon; exact hlast (by rw [hcon])
          simp [hyne]
  · have hdrop : (pre ++ List.replicate 5 dollar ++ post).drop pre.length
        = List.replicate 5 dollar ++ post := by
      rw [List.append_assoc, List.drop_left]
    simp only [hdrop]
    have hL : bslashRun (List.replicate 5 dollar ++ post) = 0 := by
      show bslashRun (dollar :: (List.replicate 4 dollar ++ post)) = 0
      simp [bslashRun, List.takeWhile_cons, show dollar ≠ bslash from by decide]
    rw [hL]
    simp only [List.drop_zero]
    rw [Bool.and_eq_true]
    constructor
    · decide
    · have htake : (List.replicate 5 dollar ++ post).take 5 = List.replicate 5 dollar :=
        List.take_left' (by simp)
      rw [htake]
      simp

theorem five_run_malformed (pre post : List Char)
    (hlast : pre.getLast? ≠ some bslash) :
    remove_dollar_equations (pre ++ List.replicate 5 dollar ++ post)
      = .error .MalformedInput := by
  have hbad : hasBadDollarRun (pre ++ List.replicate 5 dollar ++ post) = true := by
    unfold hasBadDollarRun
    rw [List.any_eq_true]
    refine ⟨pre.length, ?_, fiveAt_run pre post hlast⟩
    rw [List.mem_range]
    simp only [List.length_append, List.length_replicate]
    omega
  unfold remove_dollar_equations
  rw [if_pos hbad]

theorem popLast_append {α : Type} (l : List α) (a : α) :
    popLast (l ++ [a]) = some (a, l) := by
  unfold popLast
  rw [List.reverse_append]
  simp

/-- C3: the dollar pass.  (i) A run of 1-4 consecutive unescaped
dollars (flanked by dollar-free, backslash-free text) is collected as
exactly one delimiter token carrying its position and length; (ii) a
dollar preceded by exactly one backslash is never a delimiter (no token
at all arises from it); (iii) an unescaped run of exactly five dollars
makes the whole pass fail with `MalformedInput`; (iv) resolution pops
tokens from the right end: exhausted tokens succeed, a lone leftover
token is malformed, a close token of length 3 is malformed, equal
open/close lengths record one interval from the open token's start to
the close token's end, a longer open token re-pushes its excess length,
and a close token longer than its open token is malformed. -/
theorem dollar_pass_spec :
    (∀ (pre : List Char) (d : Nat) (post : List Char),
      (∀ c ∈ pre, c ≠ dollar ∧ c ≠ bslash) →
      (∀ c ∈ post, c ≠ dollar ∧ c ≠ bslash) →
      1 ≤ d → d ≤ 4 →
      dollarTokens (pre ++ List.replicate d dollar ++ post) = [(pre.length, d)]) ∧
    (∀ (pre : List Char) (a : Char) (post : List Char),
      (∀ c ∈ pre, c ≠ dollar ∧ c ≠ bslash) → a ≠ dollar → a ≠ bslash →
      (∀ c ∈ post, c ≠ dollar ∧ c ≠ bslash) →
      dollarTokens (pre ++ a :: bslash :: dollar :: post) = []) ∧
    (∀ (pre post : List Char), pre.getLast? ≠ some bslash →
      remove_dollar_equations (pre ++ List.replicate 5 dollar ++ post)
        = .error .MalformedInput) ∧
    (∀ (fuel : Nat) (acc : List (Nat × Nat)), resolveGo (fuel + 1) [] acc = .ok acc) ∧
    (∀ (fuel : Nat) (tk : Nat × Nat) (acc : List (Nat × Nat)),
      resolveGo (fuel + 1) [tk] acc = .error .MalformedInput) ∧
    (∀ (fuel : Nat) (ts : List (Nat × Nat)) (op ol cp : Nat) (acc : List (Nat × Nat)),
      resolveGo (fuel + 1) (ts ++ [(op, ol), (cp, 3)]) acc = .error .MalformedInput) ∧
    (∀ (fuel : Nat) (ts : List (Nat × Nat)) (op cl cp : Nat) (acc : List (Nat × Nat)),
      cl ≠ 3 →
      resolveGo (fuel + 1) (ts ++ [(op, cl), (cp, cl)]) acc
        = resolveGo fuel ts (acc ++ [(op, cp + cl - 1)])) ∧
    (∀ (fuel : Nat) (ts : List (Nat × Nat)) (op ol cp cl : Nat)
       (acc : List (Nat × Nat)),
      cl ≠ 3 → ol > cl →
      resolveGo (fuel + 1) (ts ++ [(op, ol), (cp, cl)]) acc
        = resolveGo fuel (ts ++ [(op, ol - cl)])
            (acc ++ [(op + (ol - cl), cp + cl - 1)])) ∧
    (∀ (fuel : Nat) (ts : List (Nat × Nat)) (op ol cp cl : Nat)
       (acc : List (Nat × Nat)),
      cl ≠ 3 → cl > ol →
      resolveGo (fuel + 1) (ts ++ [(op, ol), (cp, cl)]) acc
        = .error .MalformedInput) := by
  have hpop2 : ∀ (ts : List (Nat × Nat)) (x y : Nat × Nat),
      popLast (ts ++ [x, y]) = some (y, ts ++ [x]) := by
    intro ts x y
    rw [show ts ++ [x, y] = (ts ++ [x]) ++ [y] from by simp, popLast_append]
  refine ⟨?_, ?_, ?_, ?_, ?_, ?_, ?_, ?_, ?_⟩
  · intro pre d post hpre hpost h1 h4
    unfold dollarTokens
    have h := dollarTokensGo_clean_run pre
      ((pre ++ List.replicate d dollar ++ post).length) 0 none d post hpre hpost
      (by decide) h1 h4
      (by simp only [List.length_append, List.length_replicate]; omega)
    simpa using h
  · intro pre a post hpre ha1 ha2 hpost
    exact dollarTokensGo_escaped pre _ 0 none a post hpre ha1 ha2 hpost
  · exact five_run_malformed
  · intro fuel acc
    simp [resolveGo, popLast]
  · intro fuel tk acc
    obtain ⟨cp, cl⟩ := tk
    rw [show [((cp, cl) : Nat × Nat)] = [] ++ [(cp, cl)] from rfl]
    simp [resolveGo, popLast_append, popLast]
  · intro fuel ts op ol cp acc
    simp only [resolveGo, hpop2, popLast_append]
    simp
  · intro fuel ts op cl cp acc hne3
    simp only [resolveGo, hpop2, popLast_append]
    rw [if_neg hne3]
    simp
  · intro fuel ts op ol cp cl acc hne3 hgt
    simp only [resolveGo, hpop2, popLast_append]
    rw [if_neg hne3, if_neg (by omega), if_pos hgt]
  · intro fuel ts op ol cp cl acc hne3 hgt
    simp only [resolveGo, hpop2, popLast_append]
    rw [if_neg hne3, if_neg (by omega), if_neg (by omega)]

/-- Witness for `dollar_pass_spec` at concrete token lists and the
inputs `"ab$$c"`, `"a\$b"`, `"a$$$$$b"`. -/
theorem dollar_pass_spec_witness :
    dollarTokens (String.toList "ab$$c") = [(2, 2)] ∧
    dollarTokens (String.toList "a\\$b") = [] ∧
    remove_dollar_equations (String.toList "a$$$$$b") = .error .MalformedInput ∧
    resolveGo 1 [] [] = .ok [] ∧
    resolveGo 1 [(0, 1)] [] = .error .MalformedInput ∧
    resolveGo 1 [(0, 1), (5, 3)] [] = .error .MalformedInput ∧
    resolveGo 2 [(0, 2), (5, 2)] [] = resolveGo 1 [] [(0, 6)] ∧
    resolveGo 2 [(0, 3), (5, 2)] [] = resolveGo 1 [(0, 1)] [(1, 6)] ∧
    resolveGo 1 [(0, 1), (5, 2)] [] = .error .MalformedInput :=
  ⟨by
    have h := dollar_pass_spec.1 (String.toList "ab") 2 (String.toList "c")
      (by decide) (by decide) (by decide) (by decide)
    simpa using h,
   by
    have h := dollar_pass_spec.2.1 [] 'a' (String.toList "b")
      (by intro c hc; simp at hc) (by decide) (by decide) (by decide)
    simpa using h,
   by
    have h := dollar_pass_spec.2.2.1 (String.toList "a") (String.toList "b")
      (by decide)
    simpa using h,
   dollar_pass_spec.2.2.2.1 0 [],
   dollar_pass_spec.2.2.2.2.1 0 (0, 1) [],
   dollar_pass_spec.2.2.2.2.2.1 0 [] 0 1 5 [],
   dollar_pass_spec.2.2.2.2.2.2.1 1 [] 0 2 5 [] (by decide),
   dollar_pass_spec.2.2.2.2.2.2.2.1 1 [] 0 3 5 2 [] (by decide) (by decide),
   dollar_pass_spec.2.2.2.2.2.2.2.2 0 [] 0 1 5 2 [] (by decide) (by decide)⟩

/-! ## Lemmas about `_normalize_commands` (claim C5) -/

theorem cmdCatalog_exp :
    cmdCatalog = String.toList "subsubsection" :: String.toList "subsection"
      :: String.toList "section" :: String.toList "chapter" :: String.toList "title"
      :: String.toList "author" :: String.toList "footnote" :: String.toList "emph"
      :: [] := rfl

theorem firstCmdWith_cons_self (la : Char) (n : List Char) (ns : List (List Char))
    (rest : List Char) :
    firstCmdWith la (n :: ns) (n ++ la :: rest) = some n.length := by
  have hc : (n.isPrefixOf (n ++ la :: rest) &&
      ((n ++ la :: rest).drop n.length).head? == some la) = true := by
    rw [Bool.and_eq_true]
    constructor
    · rw [List.isPrefixOf_iff_prefix]
      exact List.prefix_append n _
    · rw [List.drop_left]
      simp
  have hstep : firstCmdWith la (n :: ns) (n ++ la :: rest)
      = if (n.isPrefixOf (n ++ la :: rest) &&
          ((n ++ la :: rest).drop n.length).head? == some la) = true
        then some n.length else firstCmdWith la ns (n ++ la :: rest) := rfl
  rw [hstep, if_pos hc]

theorem firstCmdWith_cons_skip {la : Char} {n s : List Char} {ns : List (List Char)}
    (h : (n.isPrefixOf s && ((s.drop n.length).head? == some la)) = false) :
    firstCmdWith la (n :: ns) s = firstCmdWith la ns s := by
  have hstep : firstCmdWith la (n :: ns) s
      = if (n.isPrefixOf s && ((s.drop n.length).head? == some la)) = true
        then some n.length else firstCmdWith la ns s := rfl
  rw [hstep, if_neg (by rw [h]; exact Bool.false_ne_true)]

theorem firstCmdWith_cons_skip_la {la la' : Char} (hne : la' ≠ la)
    (n : List Char) (ns : List (List Char)) (rest : List Char) :
    firstCmdWith la (n :: ns) (n ++ la' :: rest)
      = firstCmdWith la ns (n ++ la' :: rest) := by
  apply firstCmdWith_cons_skip
  have h2 : ((n ++ la' :: rest).drop n.length) = la' :: rest := List.drop_left _ _
  rw [h2]
  simp [hne]

theorem firstCmdWith_self (la : Char) {name : List Char} (hmem : name ∈ cmdCatalog)
    (rest : List Char) :
    firstCmdWith la cmdCatalog (name ++ la :: rest) = some name.length := by
  rw [cmdCatalog_exp] at hmem ⊢
  simp only [List.mem_cons, List.not_mem_nil, or_false] at hmem
  rcases hmem with rfl | rfl | rfl | rfl | rfl | rfl | rfl | rfl
  · exact firstCmdWith_cons_self la _ _ rest
  · rw [firstCmdWith_cons_skip]
    · exact firstCmdWith_cons_self la _ _ rest
    all_goals rfl
  · rw [firstCmdWith_cons_skip, firstCmdWith_cons_skip]
    · exact firstCmdWith_cons_self la _ _ rest
    all_goals rfl
  · rw [firstCmdWith_cons_skip, firstCmdWith_cons_skip, firstCmdWith_cons_skip]
    · exact firstCmdWith_cons_self la _ _ rest
    all_goals rfl
  · rw [firstCmdWith_cons_skip, firstCmdWith_cons_skip, firstCmdWith_cons_skip,
      firstCmdWith_cons_skip]
    · exact firstCmdWith_cons_self la _ _ rest
    all_goals rfl
  · rw [firstCmdWith_cons_skip, firstCmdWith_cons_skip, firstCmdWith_cons_skip,
      firstCmdWith_cons_skip, firstCmdWith_cons_skip]
    · exact firstCmdWith_cons_self la _ _ rest
    all_goals rfl
  · rw [firstCmdWith_cons_skip, firstCmdWith_cons_skip, firstCmdWith_cons_skip,
      firstCmdWith_cons_skip, firstCmdWith_cons_skip, firstCmdWith_cons_skip]
    · exact firstCmdWith_cons_self la _ _ rest
    all_goals rfl
  · rw [firstCmdWith_cons_skip, firstCmdWith_cons_skip, firstCmdWith_cons_skip,
      firstCmdWith_cons_skip, firstCmdWith_cons_skip, firstCmdWith_cons_skip,
      firstCmdWith_cons_skip]
    · exact firstCmdWith_cons_self la _ _ rest
    all_goals rfl

theorem firstCmdWith_none (la la' : Char) (hne : la' ≠ la) {name : List Char}
    (hmem : name ∈ cmdCatalog) (rest : List Char) :
    firstCmdWith la cmdCatalog (name ++ la' :: rest) = none := by
  rw [cmdCatalog_exp] at hmem ⊢
  simp only [List.mem_cons, List.not_mem_nil, or_false] at hmem
  rcases hmem with rfl | rfl | rfl | rfl | rfl | rfl | rfl | rfl
  · rw [firstCmdWith_cons_skip_la hne]
    all_goals rfl
  · rw [firstCmdWith_cons_skip, firstCmdWith_cons_skip_la hne]
    all_goals rfl
  · rw [firstCmdWith_cons_skip, firstCmdWith_cons_skip, firstCmdWith_cons_skip_la hne]
    all_goals rfl
  · rw [firstCmdWith_cons_skip, firstCmdWith_cons_skip, firstCmdWith_cons_skip,
      firstCmdWith_cons_skip_la hne]
    all_goals rfl
  · rw [firstCmdWith_cons_skip, firstCmdWith_cons_skip, firstCmdWith_cons_skip,
      firstCmdWith_cons_skip, firstCmdWith_cons_skip_la hne]
    all_goals rfl
  · rw [firstCmdWith_cons_skip, firstCmdWith_cons_skip, firstCmdWith_cons_skip,
      firstCmdWith_cons_skip, firstCmdWith_cons_skip, firstCmdWith_cons_skip_la hne]
    all_goals rfl
  · rw [firstCmdWith_cons_skip, firstCmdWith_cons_skip, firstCmdWith_cons_skip,
      firstCmdWith_cons_skip, firstCmdWith_cons_skip, firstCmdWith_cons_skip,
      firstCmdWith_cons_skip_la hne]
    all_goals rfl
  · rw [firstCmdWith_cons_skip, firstCmdWith_cons_skip, firstCmdWith_cons_skip,
      firstCmdWith_cons_skip, firstCmdWith_cons_skip, firstCmdWith_cons_skip,
      firstCmdWith_cons_skip, firstCmdWith_cons_skip_la hne]
    all_goals rfl

theorem catalog_no_bslash {name : List Char} (hmem : name ∈ cmdCatalog) :
    bslash ∉ name := by
  rw [cmdCatalog_exp] at hmem
  simp only [List.mem_cons, List.not_mem_nil, or_false] at hmem
  rcases hmem with rfl | rfl | rfl | rfl | rfl | rfl | rfl | rfl <;> decide

theorem findCmdOpens_clean :
    ∀ (s : List Char) (fuel pos : Nat), bslash ∉ s → findCmdOpens fuel pos s = [] := by
  intro s
  induction s with
  | nil => intro fuel pos _; cases fuel <;> rfl
  | cons c cs ih =>
    intro fuel pos h
    cases fuel with
    | zero => rfl
    | succ fuel =>
      have hc : ¬ c = bslash := fun hcc => h (hcc ▸ List.mem_cons_self c cs)
      have hstep : findCmdOpens (fuel + 1) pos (c :: cs)
          = findCmdOpens fuel (pos + 1) cs := by
        simp [findCmdOpens, hc]
      rw [hstep]
      exact ih fuel (pos + 1) (fun hm => h (List.mem_cons_of_mem c hm))

theorem stripBareGo_clean :
    ∀ (s : List Char) (fuel : Nat), bslash ∉ s → stripBareGo fuel s = s := by
  intro s
  induction s with
  | nil => intro fuel _; cases fuel <;> rfl
  | cons c cs ih =>
    intro fuel h
    cases fuel with
    | zero => rfl
    | succ fuel =>
      have hc : ¬ c = bslash := fun hcc => h (hcc ▸ List.mem_cons_self c cs)
      have hstep : stripBareGo (fuel + 1) (c :: cs) = c :: stripBareGo fuel cs := by
        simp [stripBareGo, hc]
      rw [hstep, ih fuel (fun hm => h (List.mem_cons_of_mem c hm))]

theorem findCmdOpens_step_some {fuel pos nl : Nat} {cs : List Char}
    (h : firstCmdWith obrace cmdCatalog cs = some nl) :
    findCmdOpens (fuel + 1) pos (bslash :: cs)
      = (pos + 1 + nl) :: findCmdOpens fuel (pos + 1 + nl) (cs.drop nl) := by
  simp [findCmdOpens, h]

theorem findCmdOpens_step_none {fuel pos : Nat} {cs : List Char}
    (h : firstCmdWith obrace cmdCatalog cs = none) :
    findCmdOpens (fuel + 1) pos (bslash :: cs) = findCmdOpens fuel (pos + 1) cs := by
  simp [findCmdOpens, h]

theorem stripBareGo_step_some {fuel nl : Nat} {cs : List Char}
    (h : firstCmdWith (' ') cmdCatalog cs = some nl) :
    stripBareGo (fuel + 1) (bslash :: cs) = stripBareGo fuel (cs.drop nl) := by
  simp [stripBareGo, h]

theorem matching_paren_pos_bal_prefix (openP closeP : Char) (hne : openP ≠ closeP)
    (arg rest : List Char) (hbal : balScan openP closeP arg 0 = true) :
    matching_paren_pos (openP :: (arg ++ closeP :: rest)) openP closeP
      = .ok (1 + arg.length) := by
  have step : matching_paren_pos (openP :: (arg ++ closeP :: rest)) openP closeP
      = parenScan openP closeP (arg ++ closeP :: rest) 1 1 := by
    simp [matching_paren_pos, parenScan]
  rw [step, parenScan_bal hne arg 1 0 rest hbal]

theorem openScan_no_close (openP closeP : Char) :
    ∀ (arg : List Char) (d : Nat), closeP ∉ arg → openScan openP closeP arg d = true := by
  intro arg
  induction arg with
  | nil => intro d _; rfl
  | cons c cs ih =>
    intro d h
    have hc : ¬ c = closeP := fun hcc => h (hcc ▸ List.mem_cons_self c cs)
    have hrest : closeP ∉ cs := fun hm => h (List.mem_cons_of_mem c hm)
    by_cases hco : c = openP
    · simp only [openScan, if_pos hco]
      exact ih (d + 1) hrest
    · simp only [openScan, if_neg hco, if_neg hc]
      exact ih d hrest

theorem matching_paren_pos_unclosed (arg : List Char) (hnc : cbrace ∉ arg) :
    matching_paren_pos (obrace :: arg) obrace cbrace
      = .error .UnbalancedDelimiters := by
  have step : matching_paren_pos (obrace :: arg) obrace cbrace
      = parenScan obrace cbrace arg 1 1 := by
    simp [matching_paren_pos, parenScan]
  rw [step, parenScan_open arg 1 0 (openScan_no_close obrace cbrace arg 0 hnc)]

theorem applyCmdAt_ok {t : List Char} {o delta : Nat}
    (h : matching_paren_pos (t.drop o) obrace cbrace = .ok delta) :
    applyCmdAt t o = t.take o ++ ' ' ::
      ((t.drop (o + 1)).take (o + delta - (o + 1))) ++ ' ' :: t.drop (o + delta + 1) := by
  unfold applyCmdAt
  rw [h]

theorem applyCmdAt_err {t : List Char} {o : Nat} {e : Err}
    (h : matching_paren_pos (t.drop o) obrace cbrace = .error e) :
    applyCmdAt t o = t.take o ++ ' ' :: t.drop (o + 1) := by
  unfold applyCmdAt
  rw [h]

theorem clean_wrapped_suffix {arg post : List Char} (harg : bslash ∉ arg)
    (hpost : bslash ∉ post) :
    bslash ∉ obrace :: (arg ++ cbrace :: post) := by
  intro hm
  rcases List.mem_cons.1 hm with h | h
  · exact absurd h (by decide)
  · rcases List.mem_append.1 h with h | h
    · exact harg h
    · rcases List.mem_cons.1 h with h | h
      · exact absurd h (by decide)
      · exact hpost h

theorem clean_space_suffix {arg post : List Char} (harg : bslash ∉ arg)
    (hpost : bslash ∉ post) :
    bslash ∉ arg ++ ' ' :: post := by
  intro hm
  rcases List.mem_append.1 hm with h | h
  · exact harg h
  · rcases List.mem_cons.1 h with h | h
    · exact absurd h (by decide)
    · exact hpost h

theorem normalize_commands_wrapped {name : List Char} (hmem : name ∈ cmdCatalog)
    (arg post : List Char) (harg : bslash ∉ arg) (hpost : bslash ∉ post)
    (hbal : balScan obrace cbrace arg 0 = true) :
    normalize_commands (bslash :: (name ++ obrace :: (arg ++ cbrace :: post)))
      = ' ' :: (arg ++ ' ' :: post) := by
  have hopens : findCmdOpens
      (bslash :: (name ++ obrace :: (arg ++ cbrace :: post))).length 0
      (bslash :: (name ++ obrace :: (arg ++ cbrace :: post)))
      = [0 + 1 + name.length] := by
    rw [List.length_cons,
      findCmdOpens_step_some (firstCmdWith_self obrace hmem (arg ++ cbrace :: post)),
      List.drop_left,
      findCmdOpens_clean _ _ _ (clean_wrapped_suffix harg hpost)]
  have hm : matching_paren_pos
      ((bslash :: (name ++ obrace :: (arg ++ cbrace :: post))).drop (0 + 1 + name.length))
      obrace cbrace = .ok (1 + arg.length) := by
    rw [show 0 + 1 + name.length = name.length + 1 from by omega,
      List.drop_succ_cons, List.drop_left]
    exact matching_paren_pos_bal_prefix obrace cbrace (by decide) arg post hbal
  have happly : applyCmdAt (bslash :: (name ++ obrace :: (arg ++ cbrace :: post)))
      (0 + 1 + name.length) = bslash :: (name ++ ' ' :: (arg ++ ' ' :: post)) := by
    rw [applyCmdAt_ok hm]
    have h1 : (bslash :: (name ++ obrace :: (arg ++ cbrace :: post))).take
        (0 + 1 + name.length) = bslash :: name := by
      rw [show 0 + 1 + name.length = name.length + 1 from by omega,
        List.take_succ_cons, List.take_left]
    have h2 : (bslash :: (name ++ obrace :: (arg ++ cbrace :: post))).drop
        (0 + 1 + name.length + 1) = arg ++ cbrace :: post := by
      rw [show 0 + 1 + name.length + 1 = (name.length + 1) + 1 from by omega,
        List.drop_succ_cons]
      rw [show name ++ obrace :: (arg ++ cbrace :: post)
          = (name ++ [obrace]) ++ (arg ++ cbrace :: post) from by simp]
      exact List.drop_left' (by simp)
    have h4 : (bslash :: (name ++ obrace :: (arg ++ cbrace :: post))).drop
        (0 + 1 + name.length + (1 + arg.length) + 1) = post := by
      rw [show bslash :: (name ++ obrace :: (arg ++ cbrace :: post))
          = (bslash :: (name ++ obrace :: (arg ++ [cbrace]))) ++ post from by simp]
      refine List.drop_left' ?_
      simp only [List.length_cons, List.length_append]
      simp
      omega
    rw [h1, h2, h4]
    have h3 : (arg ++ cbrace :: post).take
        (0 + 1 + name.length + (1 + arg.length) - (0 + 1 + name.length + 1))
        = arg := by
      rw [show 0 + 1 + name.length + (1 + arg.length) - (0 + 1 + name.length + 1)
          = arg.length from by omega]
      exact List.take_left' rfl
    rw [h3]
    simp
  unfold normalize_commands
  rw [hopens]
  simp only [List.foldl_cons, List.foldl_nil]
  rw [happly, List.length_cons,
    stripBareGo_step_some (firstCmdWith_self (' ') hmem (arg ++ ' ' :: post)),
    List.drop_left]
  exact stripBareGo_clean _ _ (by
    intro hm2
    rcases List.mem_cons.1 hm2 with h | h
    · exact absurd h (by decide)
    · exact clean_space_suffix harg hpost h)

theorem normalize_commands_bare {name : List Char} (hmem : name ∈ cmdCatalog)
    (post : List Char) (hpost : bslash ∉ post) :
    normalize_commands (bslash :: (name ++ ' ' :: post)) = ' ' :: post := by
  have hnb : bslash ∉ name := catalog_no_bslash hmem
  have hclean : bslash ∉ name ++ ' ' :: post := by
    intro hm
    rcases List.mem_append.1 hm with h | h
    · exact hnb h
    · rcases List.mem_cons.1 h with h | h
      · exact absurd h (by decide)
      · exact hpost h
  have hopens : findCmdOpens (bslash :: (name ++ ' ' :: post)).length 0
      (bslash :: (name ++ ' ' :: post)) = [] := by
    rw [List.length_cons,
      findCmdOpens_step_none (firstCmdWith_none obrace (' ') (by decide) hmem post),
      findCmdOpens_clean _ _ _ hclean]
  unfold normalize_commands
  rw [hopens]
  simp only [List.foldl_nil]
  rw [List.length_cons,
    stripBareGo_step_some (firstCmdWith_self (' ') hmem post),
    List.drop_left,
    stripBareGo_clean _ _ (by
      intro hm
      rcases List.mem_cons.1 hm with h | h
      · exact absurd h (by decide)
      · exact hpost h)]

theorem normalize_commands_unclosed {name : List Char} (hmem : name ∈ cmdCatalog)
    (arg : List Char) (harg : bslash ∉ arg) (hnc : cbrace ∉ arg) :
    normalize_commands (bslash :: (name ++ obrace :: arg)) = ' ' :: arg := by
  have hopens : findCmdOpens (bslash :: (name ++ obrace :: arg)).length 0
      (bslash :: (name ++ obrace :: arg)) = [0 + 1 + name.length] := by
    rw [List.length_cons,
      findCmdOpens_step_some (firstCmdWith_self obrace hmem arg),
      List.drop_left,
      findCmdOpens_clean _ _ _ (by
        intro hm
        rcases List.mem_cons.1 hm with h | h
        · exact absurd h (by decide)
        · exact harg h)]
  have hm : matching_paren_pos
      ((bslash :: (name ++ obrace :: arg)).drop (0 + 1 + name.length)) obrace cbrace
      = .error .UnbalancedDelimiters := by
    rw [show 0 + 1 + name.length = name.length + 1 from by omega,
      List.drop_succ_cons, List.drop_left]
    exact matching_paren_pos_unclosed arg hnc
  have happly : applyCmdAt (bslash :: (name ++ obrace :: arg)) (0 + 1 + name.length)
      = bslash :: (name ++ ' ' :: arg) := by
    rw [applyCmdAt_err hm]
    have h1 : (bslash :: (name ++ obrace :: arg)).take (0 + 1 + name.length)
        = bslash :: name := by
      rw [show 0 + 1 + name.length = name.length + 1 from by omega,
        List.take_succ_cons, List.take_left]
    have h2 : (bslash :: (name ++ obrace :: arg)).drop (0 + 1 + name.length + 1)
        = arg := by
      rw [show 0 + 1 + name.length + 1 = (name.length + 1) + 1 from by omega,
        List.drop_succ_cons]
      rw [show name ++ obrace :: arg = (name ++ [obrace]) ++ arg from by simp]
      exact List.drop_left' (by simp)
    rw [h1, h2]
    simp
  unfold normalize_commands
  rw [hopens]
  simp only [List.foldl_cons, List.foldl_nil]
  rw [happly, List.length_cons,
    stripBareGo_step_some (firstCmdWith_self (' ') hmem arg),
    List.drop_left,
    stripBareGo_clean _ _ (by
      intro hm
      rcases List.mem_cons.1 hm with h | h
      · exact absurd h (by decide)
      · exact harg h)]


/-- C5 counterexample: `\chapter` followed by a newline is *not*
deleted (the bare-command rule looks for a literal space, not arbitrary
whitespace), and on `\chapter{One` (unclosed brace) the opening brace
is replaced by a space — after which the bare-command rule deletes
`\chapter` — yielding `" One"` rather than the claim's
brace-only deletion. -/
theorem normalize_commands_counterexample :
    normalize_commands (String.toList "\\chapter\n") = String.toList "\\chapter\n" ∧
    normalize_commands (String.toList "\\chapter\x7bOne") = String.toList " One" :=
  ⟨rfl, rfl⟩

/-- C5 corrected: for a catalogued command `\name{arg}post` (no
backslash in `arg`/`post`, `arg` brace-balanced) the whole occurrence
becomes one space, the unwrapped argument, and a trailing space.  A
catalogued bare command is deleted when followed by a literal *space*
character (not arbitrary whitespace).  When the opening brace never
closes, the brace is replaced by a space (not deleted) and scanning
continues without raising; the command token, now followed by a space,
is then removed by the bare-command rule. -/
theorem normalize_commands_spec :
    (∀ (name : List Char), name ∈ cmdCatalog → ∀ (arg post : List Char),
      bslash ∉ arg → bslash ∉ post → balScan obrace cbrace arg 0 = true →
      normalize_commands (bslash :: (name ++ obrace :: (arg ++ cbrace :: post)))
        = ' ' :: (arg ++ ' ' :: post)) ∧
    (∀ (name : List Char), name ∈ cmdCatalog → ∀ (post : List Char),
      bslash ∉ post →
      normalize_commands (bslash :: (name ++ ' ' :: post)) = ' ' :: post) ∧
    (∀ (name : List Char), name ∈ cmdCatalog → ∀ (arg : List Char),
      bslash ∉ arg → cbrace ∉ arg →
      normalize_commands (bslash :: (name ++ obrace :: arg)) = ' ' :: arg) :=
  ⟨fun _ hmem arg post harg hpost hbal =>
      normalize_commands_wrapped hmem arg post harg hpost hbal,
   fun _ hmem post hpost => normalize_commands_bare hmem post hpost,
   fun _ hmem arg harg hnc => normalize_commands_unclosed hmem arg harg hnc⟩

/-- Witness for `normalize_commands_spec` at `\chapter{One}z`,
`\chapter z` and `\chapter{On`. -/
theorem normalize_commands_spec_witness :
    normalize_commands (bslash :: (String.toList "chapter" ++ obrace ::
        (String.toList "One" ++ cbrace :: String.toList "z")))
      = ' ' :: (String.toList "One" ++ ' ' :: String.toList "z") ∧
    normalize_commands (bslash :: (String.toList "chapter" ++ ' ' :: String.toList "z"))
      = ' ' :: String.toList "z" ∧
    normalize_commands (bslash :: (String.toList "chapter" ++ obrace :: String.toList "On"))
      = ' ' :: String.toList "On" :=
  ⟨normalize_commands_spec.1 (String.toList "chapter") (by decide)
      (String.toList "One") (String.toList "z") (by decide) (by decide) (by decide),
   normalize_commands_spec.2.1 (String.toList "chapter") (by decide)
      (String.toList "z") (by decide),
   normalize_commands_spec.2.2 (String.toList "chapter") (by decide)
      (String.toList "On") (by decide) (by decide)⟩

/-! ## Lemmas about `_remove_commands` (claim C6) -/

theorem dropWhile_all_append (b : Char) (Y : List Char) (hb : isCmdChar b = false) :
    ∀ (w : List Char), (∀ c ∈ w, isCmdChar c = true) →
      (w ++ b :: Y).dropWhile isCmdChar = b :: Y := by
  intro w
  induction w with
  | nil => intro _; simp [List.dropWhile_cons, hb]
  | cons c cs ih =>
    intro hw
    have hc := hw c (List.mem_cons_self _ _)
    simp only [List.cons_append, List.dropWhile_cons, hc, if_true]
    exact ih (fun x hx => hw x (List.mem_cons_of_mem c hx))

theorem afterCmdName_notstar {b : Char} (w Y : List Char)
    (hw : ∀ c ∈ w, isCmdChar c = true) (hb : isCmdChar b = false) (hbs : b ≠ '*') :
    afterCmdName (w ++ b :: Y) = b :: Y := by
  have hdw : (w ++ b :: Y).dropWhile isCmdChar = b :: Y :=
    dropWhile_all_append b Y hb w hw
  unfold afterCmdName
  rw [hdw]
  split
  · rename_i r2 heq
    injection heq with h1 _
    exact absurd h1 hbs
  · rfl

theorem afterCmdName_star (w Y : List Char) (hw : ∀ c ∈ w, isCmdChar c = true) :
    afterCmdName (w ++ '*' :: Y) = Y := by
  have hdw : (w ++ '*' :: Y).dropWhile isCmdChar = '*' :: Y :=
    dropWhile_all_append '*' Y (by decide) w hw
  unfold afterCmdName
  rw [hdw]
  split
  · rename_i r2 heq
    injection heq with _ h2
    exact h2.symm
  · rename_i hno
    exact absurd rfl (hno Y)

theorem afterCmdName_length_le (cs : List Char) :
    (afterCmdName cs).length ≤ cs.length := by
  have hd : (cs.dropWhile isCmdChar).length ≤ cs.length :=
    (List.dropWhile_sublist _).length_le
  unfold afterCmdName
  split
  · rename_i r2 heq
    rw [heq] at hd
    simp only [List.length_cons] at hd
    omega
  · exact hd

theorem splitCmd_none : ∀ (t : List Char), bslash ∉ t → splitCmd t = none := by
  intro t
  induction t with
  | nil => intro _; rfl
  | cons c cs ih =>
    intro h
    have hc : ¬ c = bslash := fun hcc => h (hcc ▸ List.mem_cons_self c cs)
    simp [splitCmd, hc, ih (fun hm => h (List.mem_cons_of_mem c hm))]

theorem splitCmd_pre :
    ∀ (pre rest : List Char), bslash ∉ pre →
      splitCmd (pre ++ bslash :: rest) = some (pre, afterCmdName rest) := by
  intro pre
  induction pre with
  | nil => intro rest _; simp [splitCmd]
  | cons c cs ih =>
    intro rest h
    have hc : ¬ c = bslash := fun hcc => h (hcc ▸ List.mem_cons_self c cs)
    simp [splitCmd, hc, ih rest (fun hm => h (List.mem_cons_of_mem c hm))]

theorem splitCmd_tl_lt :
    ∀ (t b tl : List Char), splitCmd t = some (b, tl) → tl.length < t.length := by
  intro t
  induction t with
  | nil => intro b tl h; simp [splitCmd] at h
  | cons c cs ih =>
    intro b tl h
    by_cases hc : c = bslash
    · simp only [splitCmd, if_pos hc, Option.some.injEq, Prod.mk.injEq] at h
      obtain ⟨hb, htl⟩ := h
      have hle := afterCmdName_length_le cs
      rw [htl] at hle
      simp only [List.length_cons]
      omega
    · simp only [splitCmd, if_neg hc] at h
      cases hs : splitCmd cs with
      | none => rw [hs] at h; cases h
      | some pr =>
        obtain ⟨b', tl'⟩ := pr
        rw [hs] at h
        simp only [Option.some.injEq, Prod.mk.injEq] at h
        obtain ⟨hb, htl⟩ := h
        have hlt := ih b' tl' hs
        rw [htl] at hlt
        simp only [List.length_cons]
        omega

theorem removeCommandsGo_step {fuel : Nat} {t b tl : List Char}
    (h : splitCmd t = some (b, tl)) :
    removeCommandsGo (fuel + 1) t
      = b ++ ' ' :: removeCommandsGo fuel (dropGroupsGo tl.length tl) := by
  simp [removeCommandsGo, h]

theorem removeCommandsGo_none {fuel : Nat} {t : List Char} (h : splitCmd t = none) :
    removeCommandsGo (fuel + 1) t = t := by
  simp [removeCommandsGo, h]

theorem dropGroupsGo_stop (fuel : Nat) (rest : List Char)
    (h : rest = [] ∨ ∃ c cs, rest = c :: cs ∧ ¬ c = obrace ∧ ¬ c = obrack) :
    dropGroupsGo fuel rest = rest := by
  cases fuel with
  | zero => rfl
  | succ fuel =>
    rcases h with rfl | ⟨c, cs, rfl, h1, h2⟩
    · rfl
    · simp [dropGroupsGo, h1, h2]

theorem dropGroupsGo_brace {fuel : Nat} (arg rest' : List Char)
    (hbal : balScan obrace cbrace arg 0 = true) :
    dropGroupsGo (fuel + 1) (obrace :: (arg ++ cbrace :: rest'))
      = dropGroupsGo fuel rest' := by
  have hmatch := matching_paren_pos_bal_prefix obrace cbrace (by decide) arg rest' hbal
  have hdrop : (obrace :: (arg ++ cbrace :: rest')).drop (1 + arg.length + 1)
      = rest' := by
    rw [show 1 + arg.length + 1 = (arg.length + 1) + 1 from by omega,
      List.drop_succ_cons,
      show arg ++ cbrace :: rest' = (arg ++ [cbrace]) ++ rest' from by simp]
    exact List.drop_left' (by simp)
  simp [dropGroupsGo, hmatch, hdrop]

theorem dropGroupsGo_bracket {fuel : Nat} (arg rest' : List Char)
    (hbal : balScan obrack cbrack arg 0 = true) :
    dropGroupsGo (fuel + 1) (obrack :: (arg ++ cbrack :: rest'))
      = dropGroupsGo fuel rest' := by
  have hmatch := matching_paren_pos_bal_prefix obrack cbrack (by decide) arg rest' hbal
  have hdrop : (obrack :: (arg ++ cbrack :: rest')).drop (1 + arg.length + 1)
      = rest' := by
    rw [show 1 + arg.length + 1 = (arg.length + 1) + 1 from by omega,
      List.drop_succ_cons,
      show arg ++ cbrack :: rest' = (arg ++ [cbrack]) ++ rest' from by simp]
    exact List.drop_left' (by simp)
  simp [dropGroupsGo, hmatch, hdrop, show ¬ (obrack = obrace) from by decide]

theorem dropGroupsGo_length_le :
    ∀ (fuel : Nat) (t : List Char), (dropGroupsGo fuel t).length ≤ t.length := by
  intro fuel
  induction fuel with
  | zero => intro t; exact Nat.le_refl _
  | succ fuel ih =>
    intro t
    cases t with
    | nil => simp [dropGroupsGo]
    | cons c cs =>
      by_cases hc1 : c = obrace
      · subst hc1
        cases hmp : matching_paren_pos (obrace :: cs) obrace cbrace with
        | ok cp =>
          have hstep : dropGroupsGo (fuel + 1) (obrace :: cs)
              = dropGroupsGo fuel ((obrace :: cs).drop (cp + 1)) := by
            simp [dropGroupsGo, hmp]
          rw [hstep]
          calc (dropGroupsGo fuel ((obrace :: cs).drop (cp + 1))).length
              ≤ ((obrace :: cs).drop (cp + 1)).length := ih _
            _ ≤ (obrace :: cs).length := by
                rw [List.length_drop]; omega
        | error e =>
          have hstep : dropGroupsGo (fuel + 1) (obrace :: cs) = cs := by
            simp [dropGroupsGo, hmp]
          rw [hstep]
          simp
      · by_cases hc2 : c = obrack
        · subst hc2
          cases hmp : matching_paren_pos (obrack :: cs) obrack cbrack with
          | ok cp =>
            have hstep : dropGroupsGo (fuel + 1) (obrack :: cs)
                = dropGroupsGo fuel ((obrack :: cs).drop (cp + 1)) := by
              simp [dropGroupsGo, hmp, hc1]
            rw [hstep]
            calc (dropGroupsGo fuel ((obrack :: cs).drop (cp + 1))).length
                ≤ ((obrack :: cs).drop (cp + 1)).length := ih _
              _ ≤ (obrack :: cs).length := by
                  rw [List.length_drop]; omega
          | error e =>
            have hstep : dropGroupsGo (fuel + 1) (obrack :: cs) = cs := by
              simp [dropGroupsGo, hmp, hc1]
            rw [hstep]
            simp
        · have hstep : dropGroupsGo (fuel + 1) (c :: cs) = c :: cs := by
            simp [dropGroupsGo, hc1, hc2]
          rw [hstep]

theorem dropGroupsGo_fuel_ge :
    ∀ (f1 f2 : Nat) (t : List Char), t.length ≤ f1 → t.length ≤ f2 →
      dropGroupsGo f1 t = dropGroupsGo f2 t := by
  intro f1
  induction f1 with
  | zero =>
    intro f2 t h1 _
    have ht : t = [] := List.eq_nil_of_length_eq_zero (by omega)
    subst ht
    cases f2 <;> rfl
  | succ f1 ih =>
    intro f2 t h1 h2
    cases t with
    | nil => cases f2 <;> rfl
    | cons c cs =>
      cases f2 with
      | zero => simp at h2
      | succ f2 =>
        by_cases hc1 : c = obrace
        · subst hc1
          cases hmp : matching_paren_pos (obrace :: cs) obrace cbrace with
          | ok cp =>
            have hs1 : dropGroupsGo (f1 + 1) (obrace :: cs)
                = dropGroupsGo f1 ((obrace :: cs).drop (cp + 1)) := by
              simp [dropGroupsGo, hmp]
            have hs2 : dropGroupsGo (f2 + 1) (obrace :: cs)
                = dropGroupsGo f2 ((obrace :: cs).drop (cp + 1)) := by
              simp [dropGroupsGo, hmp]
            rw [hs1, hs2]
            refine ih f2 _ ?_ ?_ <;>
              (rw [List.length_drop]; simp only [List.length_cons] at h1 h2 ⊢; omega)
          | error e =>
            have hs1 : dropGroupsGo (f1 + 1) (obrace :: cs) = cs := by
              simp [dropGroupsGo, hmp]
            have hs2 : dropGroupsGo (f2 + 1) (obrace :: cs) = cs := by
              simp [dropGroupsGo, hmp]
            rw [hs1, hs2]
        · by_cases hc2 : c = obrack
          · subst hc2
            cases hmp : matching_paren_pos (obrack :: cs) obrack cbrack with
            | ok cp =>
              have hs1 : dropGroupsGo (f1 + 1) (obrack :: cs)
                  = dropGroupsGo f1 ((obrack :: cs).drop (cp + 1)) := by
                simp [dropGroupsGo, hmp, hc1]
              have hs2 : dropGroupsGo (f2 + 1) (obrack :: cs)
                  = dropGroupsGo f2 ((obrack :: cs).drop (cp + 1)) := by
                simp [dropGroupsGo, hmp, hc1]
              rw [hs1, hs2]
              refine ih f2 _ ?_ ?_ <;>
                (rw [List.length_drop]; simp only [List.length_cons] at h1 h2 ⊢; omega)
            | error e =>
              have hs1 : dropGroupsGo (f1 + 1) (obrack :: cs) = cs := by
                simp [dropGroupsGo, hmp, hc1]
              have hs2 : dropGroupsGo (f2 + 1) (obrack :: cs) = cs := by
                simp [dropGroupsGo, hmp, hc1]
              rw [hs1, hs2]
          · have hs1 : dropGroupsGo (f1 + 1) (c :: cs) = c :: cs := by
              simp [dropGroupsGo, hc1, hc2]
            have hs2 : dropGroupsGo (f2 + 1) (c :: cs) = c :: cs := by
              simp [dropGroupsGo, hc1, hc2]
            rw [hs1, hs2]

theorem removeCommandsGo_fuel_ge :
    ∀ (f1 f2 : Nat) (t : List Char), t.length ≤ f1 → t.length ≤ f2 →
      removeCommandsGo f1 t = removeCommandsGo f2 t := by
  intro f1
  induction f1 with
  | zero =>
    intro f2 t h1 _
    have ht : t = [] := List.eq_nil_of_length_eq_zero (by omega)
    subst ht
    cases f2 with
    | zero => rfl
    | succ f2 =>
      rw [removeCommandsGo_none (by simp [splitCmd])]
      rfl
  | succ f1 ih =>
    intro f2 t h1 h2
    cases hs : splitCmd t with
    | none =>
      cases f2 with
      | zero =>
        have ht : t = [] := List.eq_nil_of_length_eq_zero (by omega)
        subst ht
        rw [removeCommandsGo_none (by simp [splitCmd])]
        rfl
      | succ f2 => rw [removeCommandsGo_none hs, removeCommandsGo_none hs]
    | some pr =>
      obtain ⟨b, tl⟩ := pr
      cases f2 with
      | zero =>
        have ht : t = [] := List.eq_nil_of_length_eq_zero (by omega)
        subst ht
        simp [splitCmd] at hs
      | succ f2 =>
        rw [removeCommandsGo_step hs, removeCommandsGo_step hs]
        have hlt : tl.length < t.length := splitCmd_tl_lt t b tl hs
        have hdg : (dropGroupsGo tl.length tl).length ≤ tl.length :=
          dropGroupsGo_length_le tl.length tl
        rw [ih f2 (dropGroupsGo tl.length tl) (by omega) (by omega)]

theorem remove_commands_clean (t : List Char) (h : bslash ∉ t) :
    remove_commands t = t := by
  unfold remove_commands
  cases hl : t.length with
  | zero =>
    have ht : t = [] := List.eq_nil_of_length_eq_zero hl
    subst ht
    rfl
  | succ n =>
    rw [removeCommandsGo_none (splitCmd_none t h)]

theorem remove_commands_two_groups (pre w arg1 arg2 rest : List Char)
    (hpre : bslash ∉ pre) (hw : ∀ c ∈ w, isCmdChar c = true)
    (hbal1 : balScan obrace cbrace arg1 0 = true)
    (hbal2 : balScan obrack cbrack arg2 0 = true)
    (hrest : rest = [] ∨ ∃ c cs, rest = c :: cs ∧ ¬ c = obrace ∧ ¬ c = obrack) :
    remove_commands (pre ++ bslash ::
        (w ++ obrace :: (arg1 ++ cbrace :: (obrack :: (arg2 ++ cbrack :: rest)))))
      = pre ++ ' ' :: remove_commands rest := by
  set rest2 := arg2 ++ cbrack :: rest with hrest2
  set rest1 := obrack :: rest2 with hrest1
  set y1 := arg1 ++ cbrace :: rest1 with hy1
  set bigR := w ++ obrace :: y1 with hbigR
  set T := pre ++ bslash :: bigR with hT
  have h1 : splitCmd T = some (pre, afterCmdName bigR) := splitCmd_pre pre bigR hpre
  have h2 : afterCmdName bigR = obrace :: y1 :=
    afterCmdName_notstar w y1 hw (by decide) (by decide)
  have h3 : dropGroupsGo (obrace :: y1).length (obrace :: y1) = rest := by
    rw [List.length_cons, dropGroupsGo_brace arg1 rest1 hbal1]
    rw [dropGroupsGo_fuel_ge y1.length rest1.length rest1
      (by rw [hy1]; simp only [List.length_append, List.length_cons]; omega)
      (Nat.le_refl _)]
    rw [hrest1, List.length_cons, dropGroupsGo_bracket arg2 rest hbal2]
    exact dropGroupsGo_stop rest2.length rest hrest
  have hTlen : rest.length ≤ T.length := by
    rw [hT, hbigR, hy1, hrest1, hrest2]
    simp only [List.length_append, List.length_cons]
    omega
  unfold remove_commands
  rw [removeCommandsGo_fuel_ge T.length (T.length + 1) T (Nat.le_refl _) (Nat.le_succ _),
    removeCommandsGo_step h1, h2, h3,
    removeCommandsGo_fuel_ge T.length rest.length rest hTlen (Nat.le_refl _)]

theorem remove_commands_star_group (pre w arg1 rest : List Char)
    (hpre : bslash ∉ pre) (hw : ∀ c ∈ w, isCmdChar c = true)
    (hbal1 : balScan obrace cbrace arg1 0 = true)
    (hrest : rest = [] ∨ ∃ c cs, rest = c :: cs ∧ ¬ c = obrace ∧ ¬ c = obrack) :
    remove_commands (pre ++ bslash :: (w ++ '*' :: (obrace :: (arg1 ++ cbrace :: rest))))
      = pre ++ ' ' :: remove_commands rest := by
  set y1 := obrace :: (arg1 ++ cbrace :: rest) with hy1
  set bigR := w ++ '*' :: y1 with hbigR
  set T := pre ++ bslash :: bigR with hT
  have h1 : splitCmd T = some (pre, afterCmdName bigR) := splitCmd_pre pre bigR hpre
  have h2 : afterCmdName bigR = y1 := afterCmdName_star w y1 hw
  have h3 : dropGroupsGo y1.length y1 = rest := by
    rw [hy1, List.length_cons, dropGroupsGo_brace arg1 rest hbal1]
    exact dropGroupsGo_stop (arg1 ++ cbrace :: rest).length rest hrest
  have hTlen : rest.length ≤ T.length := by
    rw [hT, hbigR, hy1]
    simp only [List.length_append, List.length_cons]
    omega
  unfold remove_commands
  rw [removeCommandsGo_fuel_ge T.length (T.length + 1) T (Nat.le_refl _) (Nat.le_succ _),
    removeCommandsGo_step h1, h2, h3,
    removeCommandsGo_fuel_ge T.length rest.length rest hTlen (Nat.le_refl _)]

/-- C6: the Command Remover.  Text with no command token (no backslash)
is returned unchanged.  A command token `\w` followed by a brace group
and a square-bracket group is replaced by a single space, its attached
groups deleted entirely with no space emitted per group (the groups'
contents may themselves contain nested same-type brackets, which are
skipped via the balanced-content hypothesis), after which the scan
continues on the remaining text; the variant with an optional trailing
star behaves the same. -/
theorem remove_commands_spec :
    (∀ t : List Char, bslash ∉ t → remove_commands t = t) ∧
    (∀ (pre w arg1 arg2 rest : List Char), bslash ∉ pre →
      (∀ c ∈ w, isCmdChar c = true) →
      balScan obrace cbrace arg1 0 = true →
      balScan obrack cbrack arg2 0 = true →
      (rest = [] ∨ ∃ c cs, rest = c :: cs ∧ ¬ c = obrace ∧ ¬ c = obrack) →
      remove_commands (pre ++ bslash ::
          (w ++ obrace :: (arg1 ++ cbrace :: (obrack :: (arg2 ++ cbrack :: rest)))))
        = pre ++ ' ' :: remove_commands rest) ∧
    (∀ (pre w arg1 rest : List Char), bslash ∉ pre →
      (∀ c ∈ w, isCmdChar c = true) →
      balScan obrace cbrace arg1 0 = true →
      (rest = [] ∨ ∃ c cs, rest = c :: cs ∧ ¬ c = obrace ∧ ¬ c = obrack) →
      remove_commands (pre ++ bslash :: (w ++ '*' :: (obrace :: (arg1 ++ cbrace :: rest))))
        = pre ++ ' ' :: remove_commands rest) :=
  ⟨remove_commands_clean,
   remove_commands_two_groups,
   remove_commands_star_group⟩

/-- Witness for `remove_commands_spec` at `"abc"`,
`"a \cmd{x}[y]b"` and `"a \cmd*{x}b"`. -/
theorem remove_commands_spec_witness :
    remove_commands (String.toList "abc") = String.toList "abc" ∧
    remove_commands (String.toList "a " ++ bslash :: (String.toList "cmd" ++ obrace ::
        (String.toList "x" ++ cbrace :: (obrack ::
          (String.toList "y" ++ cbrack :: String.toList "b")))))
      = String.toList "a " ++ ' ' :: remove_commands (String.toList "b") ∧
    remove_commands (String.toList "a " ++ bslash :: (String.toList "cmd" ++ '*' ::
        (obrace :: (String.toList "x" ++ cbrace :: String.toList "b"))))
      = String.toList "a " ++ ' ' :: remove_commands (String.toList "b") :=
  ⟨remove_commands_spec.1 (String.toList "abc") (by decide),
   remove_commands_spec.2.1 (String.toList "a ") (String.toList "cmd")
     (String.toList "x") (String.toList "y") (String.toList "b")
     (by decide) (by decide) (by decide) (by decide)
     (Or.inr ⟨'b', [], rfl, by decide, by decide⟩),
   remove_commands_spec.2.2 (String.toList "a ") (String.toList "cmd")
     (String.toList "x") (String.toList "b")
     (by decide) (by decide) (by decide)
     (Or.inr ⟨'b', [], rfl, by decide, by decide⟩)⟩

end LatexNorm
